import Mathlib

/-!
# A verification development for `cat` (bservan/cat)

Shallow embedding of `src/cat.c` and `src/platform.c`.

Conventions of the embedding.

* Text is `List Char`.  A stream (`FILE *`) is the list of characters still
  unread; reading removes characters from its front.
* A buffer filled by `fgets` is seen by `strlen` and by `printf("%s")` as a C
  string: the characters before the first NUL (`c_str`).
* The `int` counters of `cat_process_file` are natural numbers guarded by
  `INT_MAX`: an increment that would leave the range of `int`, like the read
  of `buffer[buf_len - 1]` with `buf_len = 0`, is undefined behaviour in C and
  makes the embedded function return `none`.
* The loop `while (fgets(...))` recurses on a fuel argument; `cat_process_file`
  supplies one more unit of fuel than the stream has characters, which is
  always enough (`cat_process_loop_fuel`), and on a text without NUL that is
  short enough for the counters the result is never `none`
  (`cat_process_file_total`).
* The operating system is a record `World`: what standard input still holds,
  what `fopen` answers for a path, what `stat` answers for a path.

The file has two parts: the definitions (the embedding, then the notions the
properties are stated with), then the theorems.
-/

set_option maxRecDepth 100000

namespace Cat

/-! # Definitions -/

/-! ## Constants and the option table (`cat.c`, lines 10-70) -/

/-- Size of the read buffer, `CAT_BUFSIZE`. -/
def CAT_BUFSIZE : Nat := 1024

/-- Minimum width of the line number field, `CAT_LINENO_ADJUST`. -/
def CAT_LINENO_ADJUST : Nat := 6

/-- Width of the long option column of the help text. -/
def CAT_LINENO_ADJUST_LONGOPT : Nat := 24

/-- Program name, `CAT_PROGNAME`. -/
def CAT_PROGNAME : List Char := "cat".toList

/-- Version string, `CAT_VERSION`. -/
def CAT_VERSION : List Char := "0.0.3".toList

/-- Largest value of a C `int` (32 bits). -/
def INT_MAX : Nat := 2147483647

/-- The options, `enum cat_command_option_enum` (without the count). -/
inductive cat_command_option_enum where
  | CAT_OPTION_HELP
  | CAT_OPTION_VERSION
  | CAT_OPTION_PRINT_LINENUM
  | CAT_OPTION_PRINT_LINENUM_NONBLANK
  | CAT_OPTION_SHOW_NONPRINTING
  | CAT_OPTION_SQUEEZE_BLANK
  deriving DecidableEq, Repr

open cat_command_option_enum

/-- The options in index order `0 .. CAT_OPTION_COUNT - 1`. -/
def cat_option_indices : List cat_command_option_enum :=
  [CAT_OPTION_HELP, CAT_OPTION_VERSION, CAT_OPTION_PRINT_LINENUM,
   CAT_OPTION_PRINT_LINENUM_NONBLANK, CAT_OPTION_SHOW_NONPRINTING,
   CAT_OPTION_SQUEEZE_BLANK]

/-- One row of the option table, `struct cat_command_option`. -/
structure cat_command_option where
  shortname : List Char
  longname : List Char
  description : List Char

/-- The option table `cat_options`. -/
def cat_options : cat_command_option_enum → cat_command_option
  | CAT_OPTION_HELP =>
    { shortname := "-h".toList, longname := "--help".toList,
      description := "Print this help and exit".toList }
  | CAT_OPTION_VERSION =>
    { shortname := "-V".toList, longname := "--version".toList,
      description := "Print version information and exit".toList }
  | CAT_OPTION_PRINT_LINENUM =>
    { shortname := "-n".toList, longname := "--number".toList,
      description := "Number all output lines".toList }
  | CAT_OPTION_PRINT_LINENUM_NONBLANK =>
    { shortname := "-b".toList, longname := "--number-nonblank".toList,
      description := "Number nonempty output lines, overrides -n".toList }
  | CAT_OPTION_SQUEEZE_BLANK =>
    { shortname := "-s".toList, longname := "--squeeze-blank".toList,
      description := "Suppress repeated empty output lines".toList }
  | CAT_OPTION_SHOW_NONPRINTING =>
    { shortname := "-v".toList, longname := "--show-nonprinting".toList,
      description :=
        "Use ^ and M- notation, except for LFD and TAB (not implemented yet)".toList }

/-- The application context, `struct cat_app_context`.  The scratch `buffer`
is local to each read in the embedding; `files_count` is `files.length`.  An
entry `none` of `files` is the `NULL` that stands for standard input. -/
structure cat_app_context where
  option_enabled : cat_command_option_enum → Bool
  files : List (Option (List Char))

/-! ## The C library pieces the formatter uses -/

/-- The NUL character that ends a C string. -/
def NUL : Char := Char.ofNat 0

/-- The C string held by a buffer: the characters before the first NUL. -/
def c_str (buffer : List Char) : List Char :=
  buffer.takeWhile (fun c => c != NUL)

/-- Reads at most `n` characters from the stream, stopping after a newline;
returns the characters read and the rest of the stream. -/
def fgets_read : Nat → List Char → List Char × List Char
  | 0, fp => ([], fp)
  | _ + 1, [] => ([], [])
  | n + 1, c :: fp =>
    if c = '\n' then ([c], fp)
    else ((c :: (fgets_read n fp).1), (fgets_read n fp).2)

/-- Embedding of `fgets(buffer, size, fp)`: `none` (the C `NULL`) at end of
stream, else the buffer content (at most `size - 1` characters, ending at the
first newline) and the rest of the stream. -/
def fgets (size : Nat) (fp : List Char) : Option (List Char × List Char) :=
  match fp with
  | [] => none
  | _ :: _ => some (fgets_read (size - 1) fp)

/-- Decimal digits of a non-negative `int`. -/
def decimal (n : Nat) : List Char := Nat.toDigits 10 n

/-- Embedding of `printf("%*d", width, n)` for `n ≥ 0`: the decimal digits,
padded with spaces on the left up to the minimum width. -/
def printf_star_d (width n : Nat) : List Char :=
  List.replicate (width - (decimal n).length) ' ' ++ decimal n

/-- The two values of the variable `format` of `cat_process_file`:
`"%s"` and `"%*d  %s"`. -/
inductive cat_format where
  | plain
  | numbered
  deriving DecidableEq, Repr

/-- Embedding of `fprintf(stdout, format, CAT_LINENO_ADJUST, linenum, buffer)`.
With the format `"%s"` the three arguments do not match the format: undefined
behaviour, `none`. -/
def fprintf_format (format : cat_format) (width linenum : Nat) (str : List Char) :
    Option (List Char) :=
  match format with
  | cat_format.plain => none
  | cat_format.numbered => some (printf_star_d width linenum ++ [' ', ' '] ++ str)

/-- The C statement `n++` on an `int`: undefined beyond `INT_MAX`. -/
def int_incr (n : Nat) : Option Nat :=
  if n < INT_MAX then some (n + 1) else none

/-! ## The line formatter (`cat_process_file`, `cat.c` lines 280-338) -/

/-- The local variables of `cat_process_file` that live across reads. -/
structure cat_line_state where
  linenum : Nat
  blank_line_repeated : Nat
  line_continued : Bool
  deriving DecidableEq, Repr

/-- The block that both numbering branches share (lines 302-312 and 320-330):
write the buffer, with the line number in front unless the line is continued,
then advance the counter when the buffer ends in a newline, else mark the line
as continued. -/
def cat_emit_numbered (format : cat_format) (st : cat_line_state) (blr : Nat)
    (str : List Char) : Option (cat_line_state × List Char) :=
  (if st.line_continued then some str
   else fprintf_format format CAT_LINENO_ADJUST st.linenum str).bind fun out =>
  match str.getLast? with
  | none => none
  | some c =>
    if c = '\n' then
      (int_incr st.linenum).map fun l =>
        ({ linenum := l, blank_line_repeated := blr, line_continued := false }, out)
    else
      some ({ linenum := st.linenum, blank_line_repeated := blr, line_continued := true }, out)

/-- The squeeze-blank bookkeeping at the top of the loop body (lines 293-299). -/
def cat_blank_update (ctx : cat_app_context) (st : cat_line_state) (buf_len : Nat) :
    Option Nat :=
  if ctx.option_enabled CAT_OPTION_SQUEEZE_BLANK then
    if buf_len > 1 then some 0 else int_incr st.blank_line_repeated
  else some st.blank_line_repeated

/-- One iteration of the loop of `cat_process_file` (lines 292-336) on the
buffer just read: the new state and the text written to standard output. -/
def cat_process_chunk (ctx : cat_app_context) (format : cat_format)
    (st : cat_line_state) (buffer : List Char) : Option (cat_line_state × List Char) :=
  let str := c_str buffer
  let buf_len := str.length
  (cat_blank_update ctx st buf_len).bind fun blr =>
  if ctx.option_enabled CAT_OPTION_PRINT_LINENUM_NONBLANK then
    if buf_len > 1 then
      cat_emit_numbered format st blr str
    else
      some ({ st with blank_line_repeated := blr }, if blr ≤ 1 then str else [])
  else if ctx.option_enabled CAT_OPTION_PRINT_LINENUM then
    if blr ≤ 1 then
      cat_emit_numbered format st blr str
    else
      some ({ st with blank_line_repeated := blr }, [])
  else
    some ({ st with blank_line_repeated := blr }, if blr ≤ 1 then str else [])

/-- The loop `while (fgets(ctx->buffer, CAT_BUFSIZE, fp))` of
`cat_process_file`; the result is the text written to standard output. -/
def cat_process_loop (ctx : cat_app_context) (format : cat_format) :
    Nat → cat_line_state → List Char → Option (List Char)
  | 0, _, _ => none
  | fuel + 1, st, fp =>
    match fgets CAT_BUFSIZE fp with
    | none => some []
    | some (buffer, rest) =>
      (cat_process_chunk ctx format st buffer).bind fun r =>
      (cat_process_loop ctx format fuel r.1 rest).map fun out => r.2 ++ out

/-- The choice of `format` at the top of `cat_process_file` (lines 284-289). -/
def cat_choose_format (ctx : cat_app_context) : cat_format :=
  if ctx.option_enabled CAT_OPTION_PRINT_LINENUM ||
      ctx.option_enabled CAT_OPTION_PRINT_LINENUM_NONBLANK then
    cat_format.numbered
  else cat_format.plain

/-- Embedding of `cat_process_file(ctx, fp)`: the text written to standard
output while the stream `fp` is read to its end. -/
def cat_process_file (ctx : cat_app_context) (fp : List Char) : Option (List Char) :=
  cat_process_loop ctx (cat_choose_format ctx) (fp.length + 1)
    { linenum := 1, blank_line_repeated := 0, line_continued := false } fp

/-! ## The operating system and `platform.c` -/

/-- The file types that the `S_ISREG` and `S_ISDIR` tests of `platform.c`
tell apart. -/
inductive file_kind where
  | regular
  | directory
  | other
  deriving DecidableEq, Repr

/-- The environment of a run: the unread content of standard input, the answer
of `fopen(path, "r")` (the `strerror(errno)` text when it fails, the content of
the stream when it succeeds) and the answer of `stat(path)` (`none` when the
call fails). -/
structure World where
  stdin : List Char
  fopen : List Char → Except (List Char) (List Char)
  stat : List Char → Option file_kind

/-- Embedding of `cat_is_regular_file` (`platform.c`, POSIX branch). -/
def cat_is_regular_file (w : World) (path : List Char) : Bool :=
  match w.stat path with
  | none => false
  | some k => k == file_kind.regular

/-- Embedding of `cat_is_directory` (`platform.c`, POSIX branch). -/
def cat_is_directory (w : World) (path : List Char) : Bool :=
  match w.stat path with
  | none => false
  | some k => k == file_kind.directory

/-- The text of `strerror(EISDIR)`. -/
def strerror_EISDIR : List Char := "Is a directory".toList

/-- What a run has done so far: the text written to standard output, the text
written to standard error, the paths passed to `fopen`, in order, and what
standard input still holds. -/
structure cat_effects where
  out : List Char
  err : List Char
  opened : List (List Char)
  stdin : List Char
  deriving DecidableEq, Repr

/-- The effects of a run that has not started. -/
def cat_effects_start (w : World) : cat_effects :=
  { out := [], err := [], opened := [], stdin := w.stdin }

/-! ## Processing the source list (`cat_process_files`, lines 250-273) -/

/-- The call `cat_process_file(ctx, stdin)`: standard input is read to its end
and stays there. -/
def cat_process_stdin (ctx : cat_app_context) (eff : cat_effects) : Option cat_effects :=
  (cat_process_file ctx eff.stdin).map fun out =>
    { eff with out := eff.out ++ out, stdin := [] }

/-- The message `"%s: %s: %s\n"` written to standard error for a source. -/
def cat_source_error (path reason : List Char) : List Char :=
  CAT_PROGNAME ++ [':', ' '] ++ path ++ [':', ' '] ++ reason ++ ['\n']

/-- The `for` loop of `cat_process_files` over the entries of `ctx->files`. -/
def cat_process_files_loop (ctx : cat_app_context) (w : World) :
    List (Option (List Char)) → cat_effects → Option cat_effects
  | [], eff => some eff
  | none :: files, eff =>
    (cat_process_stdin ctx eff).bind fun eff1 => cat_process_files_loop ctx w files eff1
  | some path :: files, eff =>
    match w.fopen path with
    | Except.error reason =>
      cat_process_files_loop ctx w files
        { eff with err := eff.err ++ cat_source_error path reason,
                   opened := eff.opened ++ [path] }
    | Except.ok fp =>
      if cat_is_directory w path then
        cat_process_files_loop ctx w files
          { eff with err := eff.err ++ cat_source_error path strerror_EISDIR,
                     opened := eff.opened ++ [path] }
      else
        (cat_process_file ctx fp).bind fun out =>
          cat_process_files_loop ctx w files
            { eff with out := eff.out ++ out, opened := eff.opened ++ [path] }

/-- Embedding of `cat_process_files(ctx)`, continuing from the effects `eff`. -/
def cat_process_files (ctx : cat_app_context) (w : World) (eff : cat_effects) :
    Option cat_effects :=
  (if ctx.files.length = 0 then cat_process_stdin ctx eff else some eff).bind fun eff1 =>
    cat_process_files_loop ctx w ctx.files eff1

/-! ## The option parser (lines 175-244) -/

/-- The state of the program between `cat_app_context_init` and `cat_run`: the
context and the static variable `invalid_option` (`none` is `NULL`). -/
structure cat_program where
  context : cat_app_context
  invalid_option : Option (List Char)

/-- The assignment `ctx->option_enabled[i] = true`. -/
def cat_enable (p : cat_program) (i : cat_command_option_enum) : cat_program :=
  { p with context :=
      { p.context with
        option_enabled := fun o => if o = i then true else p.context.option_enabled o } }

/-- The assignment `invalid_option = option`. -/
def cat_set_invalid (p : cat_program) (option : List Char) : cat_program :=
  { p with invalid_option := some option }

/-- Appends an entry to `ctx->files` and counts it. -/
def cat_add_file (p : cat_program) (entry : Option (List Char)) : cat_program :=
  { p with context := { p.context with files := p.context.files ++ [entry] } }

/-- Embedding of `cat_parse_long_option(ctx, option)`: the first index whose
long name equals the option is enabled; without one the option is recorded as
invalid. -/
def cat_parse_long_option (p : cat_program) (option : List Char) : cat_program :=
  match cat_option_indices.find? (fun i => decide (option = (cat_options i).longname)) with
  | some i => cat_enable p i
  | none => cat_set_invalid p option

/-- The body of the outer loop of `cat_parse_short_option` for the letter
`option[i]`: the first index whose short name has that letter at position 1 is
enabled; without one the whole cluster `option` is recorded as invalid. -/
def cat_parse_short_letter (option : List Char) (p : cat_program) (c : Char) :
    cat_program :=
  match cat_option_indices.find? (fun j => decide ((cat_options j).shortname[1]? = some c)) with
  | some j => cat_enable p j
  | none => cat_set_invalid p option

/-- Embedding of `cat_parse_short_option(ctx, option)`: every letter of the
cluster is handled in turn. -/
def cat_parse_short_option (p : cat_program) (option : List Char) : cat_program :=
  option.foldl (cat_parse_short_letter option) p

/-- The body of the loop of `cat_parse_options` for the argument `arg`. -/
def cat_parse_argument (p : cat_program) (arg : List Char) : cat_program :=
  if arg.take 2 = ['-', '-'] then
    cat_parse_long_option p arg
  else if arg = ['-'] then
    cat_add_file p none
  else if arg.head? = some '-' then
    cat_parse_short_option p arg.tail
  else
    cat_add_file p (some arg)

/-- Embedding of `cat_parse_options(ctx, argc, argv)`; `argc` is the length of
`argv`, whose first entry, the program name, is skipped. -/
def cat_parse_options (p : cat_program) (argv : List (List Char)) : cat_program :=
  argv.tail.foldl cat_parse_argument p

/-- Embedding of `cat_app_context_init(argc, argv)`: a zeroed context with an
empty file list, then the parser.  The static `invalid_option` starts as
`NULL`.  Allocation is assumed to succeed. -/
def cat_app_context_init (argv : List (List Char)) : cat_program :=
  cat_parse_options
    { context := { option_enabled := fun _ => false, files := [] },
      invalid_option := none } argv

/-! ## Running (`cat_run` and the three printers, lines 103-167) -/

/-- Embedding of `printf("%-*s", width, s)`: the string, padded with spaces on
the right up to the minimum width. -/
def printf_minus_star_s (width : Nat) (s : List Char) : List Char :=
  s ++ List.replicate (width - s.length) ' '

/-- One row of the help text, `"  %-*s  %-*s  %s\n"`. -/
def cat_help_row (i : cat_command_option_enum) : List Char :=
  [' ', ' '] ++ printf_minus_star_s CAT_LINENO_ADJUST (cat_options i).shortname ++
  [' ', ' '] ++ printf_minus_star_s CAT_LINENO_ADJUST_LONGOPT (cat_options i).longname ++
  [' ', ' '] ++ (cat_options i).description ++ ['\n']

/-- The text that `cat_print_help` writes to standard output. -/
def cat_print_help : List Char :=
  CAT_PROGNAME ++ ['\n', '\n'] ++ "Print and concatenate files.\n".toList ++
  (cat_option_indices.map cat_help_row).flatten

/-- The text that `cat_print_version` writes to standard output. -/
def cat_print_version : List Char :=
  CAT_PROGNAME ++ [' '] ++ CAT_VERSION ++ ['\n']

/-- The text that `cat_print_invalid_option` writes to standard error. -/
def cat_print_invalid_option (invalid_option : List Char) : List Char :=
  CAT_PROGNAME ++ ": Invalid option -- ".toList ++ [Char.ofNat 39] ++ invalid_option ++
  [Char.ofNat 39, '\n'] ++
  ("Try ".toList ++ [Char.ofNat 39] ++ "cat --help".toList ++ [Char.ofNat 39] ++
   " to get help message.".toList)

/-- Embedding of `cat_run(context)` in the world `w`. -/
def cat_run (p : cat_program) (w : World) : Option cat_effects :=
  match p.invalid_option with
  | some option =>
    some { cat_effects_start w with err := cat_print_invalid_option option }
  | none =>
    if p.context.option_enabled CAT_OPTION_HELP then
      some { cat_effects_start w with out := cat_print_help }
    else if p.context.option_enabled CAT_OPTION_VERSION then
      some { cat_effects_start w with out := cat_print_version }
    else
      cat_process_files p.context w (cat_effects_start w)

/-- Embedding of `main`: initialise from the arguments, then run. -/
def cat_main (argv : List (List Char)) (w : World) : Option cat_effects :=
  cat_run (cat_app_context_init argv) w

/-! ## Definitions used to state the properties -/

/-- The loop with the fuel that `cat_process_file` gives it. -/
def cat_process_run (ctx : cat_app_context) (format : cat_format)
    (st : cat_line_state) (fp : List Char) : Option (List Char) :=
  cat_process_loop ctx format (fp.length + 1) st fp

/-- A source entry is readable text in the world `w`: a path that `fopen`
opens, that is not a directory, and whose content has no NUL character
(standard input, `none`, always opens). -/
def readable_text (w : World) : Option (List Char) → Prop
  | none => True
  | some path =>
    match w.fopen path with
    | Except.ok fp => NUL ∉ fp ∧ cat_is_directory w path = false
    | Except.error _ => False

/-- The content of the file at a path (empty when it cannot be opened). -/
def file_content (w : World) (path : List Char) : List Char :=
  match w.fopen path with
  | Except.ok fp => fp
  | Except.error _ => []

/-- The concatenation of the sources as the claim words it: every entry
stands for its content, every `-` entry for the content of standard input, and
an empty list for standard input. -/
def claimed_concatenation (w : World) (files : List (Option (List Char))) : List Char :=
  match files with
  | [] => w.stdin
  | _ :: _ =>
    (files.map fun entry =>
      match entry with
      | none => w.stdin
      | some path => file_content w path).flatten

/-- The concatenation of the sources in order when standard input still holds
`stdin`: a `-` entry stands for what standard input holds at that moment, which
is nothing once an earlier `-` has read it. -/
def concat_sources (w : World) : List Char → List (Option (List Char)) → List Char
  | _, [] => []
  | stdin, none :: files => stdin ++ concat_sources w [] files
  | stdin, some path :: files => file_content w path ++ concat_sources w stdin files

/-! ## Concrete inputs used in examples -/

/-- A context with the given values of number, number-nonblank and
squeeze-blank, every other option disabled, and the given source list. -/
def cat_context (number nonblank squeeze : Bool) (files : List (Option (List Char))) :
    cat_app_context :=
  { option_enabled := fun o =>
      match o with
      | CAT_OPTION_PRINT_LINENUM => number
      | CAT_OPTION_PRINT_LINENUM_NONBLANK => nonblank
      | CAT_OPTION_SQUEEZE_BLANK => squeeze
      | _ => false,
    files := files }

/-- A small world: standard input holds `"x\n"`, the file `f` holds `"F\n"`,
`d` is a directory and no other path exists. -/
def example_world : World :=
  { stdin := ['x', '\n'],
    fopen := fun path =>
      if path = ['f'] then Except.ok ['F', '\n']
      else if path = ['d'] then Except.ok []
      else Except.error "No such file or directory".toList,
    stat := fun path =>
      if path = ['f'] then some file_kind.regular
      else if path = ['d'] then some file_kind.directory
      else none }

/-! ## Numbering, as the specification words it -/

/-- The text right-justified with spaces in a field of the given width. -/
def right_justify (width : Nat) (s : List Char) : List Char :=
  List.replicate (width - s.length) ' ' ++ s

/-- The number in front of a numbered line: the decimal number right-justified
in a field of width 6, then two spaces. -/
def number_field (k : Nat) : List Char :=
  right_justify 6 (decimal k) ++ [' ', ' ']

/-- The logical lines of a text: every line ends with its newline, except
possibly the last one, which the end of the text ends. -/
def logical_lines : List Char → List (List Char)
  | [] => []
  | c :: s =>
    if c = '\n' then [c] :: logical_lines s
    else
      match logical_lines s with
      | [] => [[c]]
      | line :: lines => (c :: line) :: lines

/-- The lines, each with its number in front, counted from `k`. -/
def number_lines (k : Nat) (lines : List (List Char)) : List (List Char) :=
  (lines.enumFrom k).map fun p => number_field p.1 ++ p.2

/-- A text is one newline-terminated line: it ends with a newline and has no
other newline. -/
def is_terminated_line (line : List Char) : Prop :=
  line.getLast? = some '\n' ∧ '\n' ∉ line.dropLast

/-- Whether a buffer ends with a newline, `buffer[buf_len - 1] == '\n'`. -/
def ends_in_newline (str : List Char) : Bool :=
  str.getLast? == some '\n'

/-- Numbering of a text character by character: a number field is written
before the first character of every line; `continued` tells that the text
starts inside a line whose start has been written already. -/
def number_stream : Nat → Bool → List Char → List Char
  | _, _, [] => []
  | k, continued, c :: s =>
    (if continued then [] else number_field k) ++
      c :: (if c = '\n' then number_stream (k + 1) false s else number_stream k true s)

/-! ## Number-nonblank and squeeze-blank, as the specification words them -/

/-- A blank line has at most one character: only its newline. -/
def is_blank_line (line : List Char) : Bool :=
  decide (line.length ≤ 1)

/-- Numbering of the non-blank lines: a blank line is kept as it is and does
not advance the counter; a non-blank line gets its number in front. -/
def number_nonblank_lines : Nat → List (List Char) → List (List Char)
  | _, [] => []
  | k, line :: lines =>
    if is_blank_line line then line :: number_nonblank_lines k lines
    else (number_field k ++ line) :: number_nonblank_lines (k + 1) lines

/-- Squeezing of blank lines: of every run of consecutive blank lines only the
first is kept; `after_blank` tells that the line before was blank. -/
def squeeze_blank_lines : Bool → List (List Char) → List (List Char)
  | _, [] => []
  | after_blank, line :: lines =>
    if is_blank_line line then
      if after_blank then squeeze_blank_lines true lines
      else line :: squeeze_blank_lines true lines
    else line :: squeeze_blank_lines false lines

/-- The squeeze-blank counter after a buffer of length `buf_len` when the
option is enabled (lines 294-298). -/
def blank_count_next (blank_line_repeated buf_len : Nat) : Option Nat :=
  if buf_len > 1 then some 0 else int_incr blank_line_repeated

/-- The context with one option set to the value `v` and nothing else changed. -/
def cat_with_option (ctx : cat_app_context) (o : cat_command_option_enum) (v : Bool) :
    cat_app_context :=
  { ctx with option_enabled := fun x => if x = o then v else ctx.option_enabled x }

/-- The program state with one option set to the value `v` and nothing else
changed. -/
def cat_program_with_option (p : cat_program) (o : cat_command_option_enum) (v : Bool) :
    cat_program :=
  { p with context := cat_with_option p.context o v }

/-! ## The command line, as the specification words it -/

/-- The long option names of the interface table. -/
def long_option_names : List (List Char) :=
  ["--help".toList, "--version".toList, "--number".toList, "--number-nonblank".toList,
   "--squeeze-blank".toList, "--show-nonprinting".toList]

/-- The short option letters of the interface table. -/
def short_option_letters : List Char := ['h', 'V', 'n', 'b', 's', 'v']

/-- An argument is an unrecognized option: a token that starts with `--` and is
not a long option name, or a short cluster (a token that starts with `-`, is
not `-` alone and does not start with `--`) with a letter that is not a short
option letter. -/
def unrecognized_option (arg : List Char) : Prop :=
  (arg.take 2 = ['-', '-'] ∧ arg ∉ long_option_names) ∨
  (arg.take 2 ≠ ['-', '-'] ∧ arg ≠ ['-'] ∧ arg.head? = some '-' ∧
    ∃ c ∈ arg.tail, c ∉ short_option_letters)

/-- The source list that the arguments denote: the arguments that do not start
with `-` or are exactly `-`, in their order, `-` as the standard input marker
and every other one as the file name itself. -/
def expected_sources (args : List (List Char)) : List (Option (List Char)) :=
  (args.filter fun arg => decide (arg.head? ≠ some '-' ∨ arg = ['-'])).map fun arg =>
    if arg = ['-'] then none else some arg

/-- The short option letter of each option in the interface table. -/
def short_letter : cat_command_option_enum → Char
  | CAT_OPTION_HELP => 'h'
  | CAT_OPTION_VERSION => 'V'
  | CAT_OPTION_PRINT_LINENUM => 'n'
  | CAT_OPTION_PRINT_LINENUM_NONBLANK => 'b'
  | CAT_OPTION_SQUEEZE_BLANK => 's'
  | CAT_OPTION_SHOW_NONPRINTING => 'v'

/-- An argument is a short cluster: it starts with `-`, is not `-` alone and
does not start with `--`. -/
def is_short_cluster (arg : List Char) : Prop :=
  arg.take 2 ≠ ['-', '-'] ∧ arg ≠ ['-'] ∧ arg.head? = some '-'

/-- The text that the invalid-option marker holds for an argument: the whole
token for a token that starts with `--`, the token without its leading `-` for
a short cluster. -/
def offending_text (arg : List Char) : List Char :=
  if arg.take 2 = ['-', '-'] then arg else arg.tail

instance unrecognized_option_decidable (arg : List Char) :
    Decidable (unrecognized_option arg) := by
  unfold unrecognized_option
  infer_instance

/-- What a run leaves on standard output and of its inputs: the text written
to standard output, the paths opened and what standard input still holds
(everything but the text written to standard error). -/
def cat_effects_but_err (eff : cat_effects) : List Char × List (List Char) × List Char :=
  (eff.out, eff.opened, eff.stdin)

/-! ## The sources, as the specification words them -/

/-- A source entry can be processed: standard input always; a path when
`fopen` opens it and it is not a directory. -/
def source_ok (w : World) : Option (List Char) → Bool
  | none => true
  | some path =>
    match w.fopen path with
    | Except.ok _ => !cat_is_directory w path
    | Except.error _ => false

/-- The diagnostic for a source entry that cannot be processed: the path and
the reason (that of the operating system when the path cannot be opened, that
of `EISDIR` for a directory), after the program name. -/
def source_diagnostic (w : World) : Option (List Char) → Option (List Char)
  | none => none
  | some path =>
    match w.fopen path with
    | Except.error reason => some (cat_source_error path reason)
    | Except.ok _ =>
      if cat_is_directory w path then some (cat_source_error path strerror_EISDIR)
      else none

/-- The texts that the runs of `cat_process_file` read for a list of sources
when standard input holds `stdin`: the content of each file, and for a `-`
entry what standard input holds when it is reached (nothing once an earlier
`-` has read it). -/
def source_streams (w : World) : List Char → List (Option (List Char)) → List (List Char)
  | _, [] => []
  | stdin, none :: files => stdin :: source_streams w [] files
  | stdin, some path :: files => file_content w path :: source_streams w stdin files

/-- The concatenation of the outputs of `cat_process_file`, each run alone from
the initial state, on a list of texts. -/
def concat_outputs (ctx : cat_app_context) : List (List Char) → Option (List Char)
  | [] => some []
  | fp :: fps =>
    (cat_process_file ctx fp).bind fun out =>
      (concat_outputs ctx fps).map fun rest => out ++ rest

/-- A second small world: standard input holds `"x\n"`, the file `p` holds
`"a\n\n"`, the file `q` holds `"\nb\n"`, `d` is a directory and no other path
exists. -/
def example_world_two : World :=
  { stdin := ['x', '\n'],
    fopen := fun path =>
      if path = ['p'] then Except.ok ['a', '\n', '\n']
      else if path = ['q'] then Except.ok ['\n', 'b', '\n']
      else if path = ['d'] then Except.ok []
      else Except.error "No such file or directory".toList,
    stat := fun path =>
      if path = ['p'] then some file_kind.regular
      else if path = ['q'] then some file_kind.regular
      else if path = ['d'] then some file_kind.directory
      else none }

/-! ## The formatter, write by write

The same loop as `cat_process_loop`, with the calls of `fprintf` on standard
output kept apart instead of their text being concatenated, so that a number
field written by the program can be told from the text of the input.
`cat_process_loop_writes` shows that the two agree. -/

/-- One call of `fprintf` on standard output in `cat_process_file`: with the
format `"%s"` and the buffer, or with the format `"%*d  %s"`, the line number
and the buffer. -/
inductive cat_write where
  | plain (str : List Char)
  | numbered (linenum : Nat) (str : List Char)
  deriving DecidableEq, Repr

/-- The buffer that a call writes. -/
def cat_write_text : cat_write → List Char
  | cat_write.plain str => str
  | cat_write.numbered _ str => str

/-- The text that a call writes to standard output. -/
def cat_write_render : cat_write → List Char
  | cat_write.plain str => str
  | cat_write.numbered linenum str =>
    printf_star_d CAT_LINENO_ADJUST linenum ++ [' ', ' '] ++ str

/-- The text that a sequence of calls writes to standard output. -/
def cat_writes_render (ws : List cat_write) : List Char :=
  (ws.map cat_write_render).flatten

/-- The call `fprintf(stdout, format, CAT_LINENO_ADJUST, linenum, buffer)`, as
`fprintf_format`: undefined with the format `"%s"`. -/
def cat_format_write (format : cat_format) (linenum : Nat) (str : List Char) :
    Option cat_write :=
  match format with
  | cat_format.plain => none
  | cat_format.numbered => some (cat_write.numbered linenum str)

/-- The block of `cat_emit_numbered`, with the call it makes instead of the
text. -/
def cat_emit_numbered_write (format : cat_format) (st : cat_line_state) (blr : Nat)
    (str : List Char) : Option (cat_line_state × cat_write) :=
  (if st.line_continued then some (cat_write.plain str)
   else cat_format_write format st.linenum str).bind fun wr =>
  match str.getLast? with
  | none => none
  | some c =>
    if c = '\n' then
      (int_incr st.linenum).map fun l =>
        ({ linenum := l, blank_line_repeated := blr, line_continued := false }, wr)
    else
      some ({ linenum := st.linenum, blank_line_repeated := blr, line_continued := true }, wr)

/-- One iteration of the loop, as `cat_process_chunk`, with the call it makes
(`none` when it writes nothing) instead of the text. -/
def cat_process_chunk_write (ctx : cat_app_context) (format : cat_format)
    (st : cat_line_state) (buffer : List Char) :
    Option (cat_line_state × Option cat_write) :=
  let str := c_str buffer
  let buf_len := str.length
  (cat_blank_update ctx st buf_len).bind fun blr =>
  if ctx.option_enabled CAT_OPTION_PRINT_LINENUM_NONBLANK then
    if buf_len > 1 then
      (cat_emit_numbered_write format st blr str).map fun r => (r.1, some r.2)
    else
      some ({ st with blank_line_repeated := blr },
            if blr ≤ 1 then some (cat_write.plain str) else none)
  else if ctx.option_enabled CAT_OPTION_PRINT_LINENUM then
    if blr ≤ 1 then
      (cat_emit_numbered_write format st blr str).map fun r => (r.1, some r.2)
    else
      some ({ st with blank_line_repeated := blr }, none)
  else
    some ({ st with blank_line_repeated := blr },
          if blr ≤ 1 then some (cat_write.plain str) else none)

/-- The loop of `cat_process_file`, as `cat_process_loop`, with the sequence of
calls instead of the text. -/
def cat_process_loop_write (ctx : cat_app_context) (format : cat_format) :
    Nat → cat_line_state → List Char → Option (List cat_write)
  | 0, _, _ => none
  | fuel + 1, st, fp =>
    match fgets CAT_BUFSIZE fp with
    | none => some []
    | some (buffer, rest) =>
      (cat_process_chunk_write ctx format st buffer).bind fun r =>
      (cat_process_loop_write ctx format fuel r.1 rest).map fun ws => r.2.toList ++ ws

/-- The calls of `fprintf` on standard output that `cat_process_file(ctx, fp)`
makes, in order. -/
def cat_process_writes (ctx : cat_app_context) (fp : List Char) : Option (List cat_write) :=
  cat_process_loop_write ctx (cat_choose_format ctx) (fp.length + 1)
    { linenum := 1, blank_line_repeated := 0, line_continued := false } fp

/-- The buffers that the successive calls of `fgets` return on a stream. -/
def cat_read_chunks : Nat → List Char → List (List Char)
  | 0, _ => []
  | fuel + 1, fp =>
    match fgets CAT_BUFSIZE fp with
    | none => []
    | some (buffer, rest) => buffer :: cat_read_chunks fuel rest

/-- A text ends where a line starts: it is empty or ends with a newline. -/
def at_line_start (out : List Char) : Prop :=
  out = [] ∨ out.getLast? = some '\n'

/-- The state of `cat_process_file` after at most `n` iterations of its loop,
with the rest of the stream. -/
def cat_process_reads (ctx : cat_app_context) (format : cat_format) :
    Nat → cat_line_state → List Char → Option (cat_line_state × List Char)
  | 0, st, fp => some (st, fp)
  | n + 1, st, fp =>
    match fgets CAT_BUFSIZE fp with
    | none => some (st, fp)
    | some (buffer, rest) =>
      (cat_process_chunk ctx format st buffer).bind fun r =>
        cat_process_reads ctx format n r.1 rest

/-! # Theorems -/

/-! ## Facts about reading -/

theorem c_str_of_not_mem {buffer : List Char} (h : NUL ∉ buffer) : c_str buffer = buffer := by
  unfold c_str
  rw [List.takeWhile_eq_self_iff]
  intro c hc
  have : c ≠ NUL := fun e => h (e ▸ hc)
  simpa using this

theorem fgets_read_append (n : Nat) (fp : List Char) :
    (fgets_read n fp).1 ++ (fgets_read n fp).2 = fp := by
  induction n generalizing fp with
  | zero => simp [fgets_read]
  | succ n ih =>
    cases fp with
    | nil => simp [fgets_read]
    | cons c fp =>
      by_cases hc : c = '\n'
      · simp [fgets_read, hc]
      · simp [fgets_read, hc, ih]

theorem fgets_read_length_le (n : Nat) (fp : List Char) :
    (fgets_read n fp).1.length ≤ n := by
  induction n generalizing fp with
  | zero => simp [fgets_read]
  | succ n ih =>
    cases fp with
    | nil => simp [fgets_read]
    | cons c fp =>
      by_cases hc : c = '\n'
      · simp [fgets_read, hc]
      · simpa [fgets_read, hc] using ih fp

theorem fgets_read_rest_length (n : Nat) (c : Char) (fp : List Char) :
    (fgets_read (n + 1) (c :: fp)).2.length ≤ fp.length := by
  induction n generalizing c fp with
  | zero =>
    by_cases hc : c = '\n'
    · simp [fgets_read, hc]
    · simp [fgets_read, hc]
  | succ n ih =>
    by_cases hc : c = '\n'
    · simp [fgets_read, hc]
    · cases fp with
      | nil => simp [fgets_read, hc]
      | cons d fp =>
        have := ih d fp
        rw [fgets_read]
        simp only [hc, if_false]
        exact Nat.le_succ_of_le this

theorem fgets_read_fst_ne_nil (n : Nat) (c : Char) (fp : List Char) :
    (fgets_read (n + 1) (c :: fp)).1 ≠ [] := by
  by_cases hc : c = '\n'
  · simp [fgets_read, hc]
  · simp [fgets_read, hc]

theorem fgets_read_not_mem_fst {n : Nat} {fp : List Char} (h : NUL ∉ fp) :
    NUL ∉ (fgets_read n fp).1 := by
  intro hm
  apply h
  rw [← fgets_read_append n fp]
  exact List.mem_append_left _ hm

theorem fgets_read_not_mem_snd {n : Nat} {fp : List Char} (h : NUL ∉ fp) :
    NUL ∉ (fgets_read n fp).2 := by
  intro hm
  apply h
  rw [← fgets_read_append n fp]
  exact List.mem_append_right _ hm

theorem fgets_cons (c : Char) (fp : List Char) :
    fgets CAT_BUFSIZE (c :: fp) = some (fgets_read 1023 (c :: fp)) := rfl

/-- The fuel of the loop does not matter once it exceeds the length of the
stream: the loop always reaches the end of the stream. -/
theorem cat_process_loop_fuel (ctx : cat_app_context) (format : cat_format)
    (fuel fuel2 : Nat) (st : cat_line_state) (fp : List Char)
    (h1 : fp.length < fuel) (h2 : fp.length < fuel2) :
    cat_process_loop ctx format fuel st fp = cat_process_loop ctx format fuel2 st fp := by
  induction fuel generalizing fuel2 st fp with
  | zero => omega
  | succ fuel ih =>
    cases fuel2 with
    | zero => omega
    | succ fuel2 =>
      cases fp with
      | nil => simp [cat_process_loop, fgets]
      | cons c fp =>
        have hr : (fgets_read 1023 (c :: fp)).2.length ≤ fp.length :=
          fgets_read_rest_length 1022 c fp
        simp only [cat_process_loop, fgets_cons]
        simp only [List.length_cons] at h1 h2
        cases cat_process_chunk ctx format st (fgets_read 1023 (c :: fp)).1 with
        | none => rfl
        | some r =>
          simp only [Option.some_bind]
          rw [ih fuel2 r.1 (fgets_read 1023 (c :: fp)).2 (by omega) (by omega)]

theorem cat_process_run_nil (ctx : cat_app_context) (format : cat_format)
    (st : cat_line_state) : cat_process_run ctx format st [] = some [] := by
  simp [cat_process_run, cat_process_loop, fgets]

theorem cat_process_run_cons (ctx : cat_app_context) (format : cat_format)
    (st : cat_line_state) (c : Char) (fp : List Char) :
    cat_process_run ctx format st (c :: fp) =
      (cat_process_chunk ctx format st (fgets_read 1023 (c :: fp)).1).bind fun r =>
        (cat_process_run ctx format r.1 (fgets_read 1023 (c :: fp)).2).map fun out =>
          r.2 ++ out := by
  have hr : (fgets_read 1023 (c :: fp)).2.length ≤ fp.length :=
    fgets_read_rest_length 1022 c fp
  show cat_process_loop ctx format ((fp.length + 1) + 1) st (c :: fp) = _
  rw [cat_process_loop, fgets_cons]
  simp only [cat_process_run]
  cases cat_process_chunk ctx format st (fgets_read 1023 (c :: fp)).1 with
  | none => rfl
  | some r =>
    simp only [Option.some_bind]
    rw [cat_process_loop_fuel ctx format (fp.length + 1)
      ((fgets_read 1023 (c :: fp)).2.length + 1) r.1 (fgets_read 1023 (c :: fp)).2
      (by omega) (by omega)]

theorem cat_process_file_eq_run (ctx : cat_app_context) (fp : List Char) :
    cat_process_file ctx fp =
      cat_process_run ctx (cat_choose_format ctx)
        { linenum := 1, blank_line_repeated := 0, line_continued := false } fp := rfl

/-! ## Plain copying (no numbering, no squeezing) -/

theorem cat_process_chunk_plain (ctx : cat_app_context) (format : cat_format)
    (st : cat_line_state) (buffer : List Char)
    (hn : ctx.option_enabled CAT_OPTION_PRINT_LINENUM = false)
    (hb : ctx.option_enabled CAT_OPTION_PRINT_LINENUM_NONBLANK = false)
    (hs : ctx.option_enabled CAT_OPTION_SQUEEZE_BLANK = false)
    (hblr : st.blank_line_repeated ≤ 1) (hnul : NUL ∉ buffer) :
    cat_process_chunk ctx format st buffer = some (st, buffer) := by
  simp [cat_process_chunk, cat_blank_update, hn, hb, hs, hblr, c_str_of_not_mem hnul]

theorem cat_process_run_plain (ctx : cat_app_context) (format : cat_format)
    (hn : ctx.option_enabled CAT_OPTION_PRINT_LINENUM = false)
    (hb : ctx.option_enabled CAT_OPTION_PRINT_LINENUM_NONBLANK = false)
    (hs : ctx.option_enabled CAT_OPTION_SQUEEZE_BLANK = false)
    (n : Nat) (st : cat_line_state) (fp : List Char) (hlen : fp.length ≤ n)
    (hblr : st.blank_line_repeated ≤ 1) (hnul : NUL ∉ fp) :
    cat_process_run ctx format st fp = some fp := by
  induction n generalizing st fp with
  | zero =>
    have : fp = [] := List.length_eq_zero.mp (Nat.le_zero.mp hlen)
    subst this
    exact cat_process_run_nil ctx format st
  | succ n ih =>
    cases fp with
    | nil => exact cat_process_run_nil ctx format st
    | cons c fp =>
      have hr : (fgets_read 1023 (c :: fp)).2.length ≤ fp.length :=
        fgets_read_rest_length 1022 c fp
      simp only [List.length_cons] at hlen
      rw [cat_process_run_cons,
        cat_process_chunk_plain ctx format st _ hn hb hs hblr (fgets_read_not_mem_fst hnul)]
      simp only [Option.some_bind]
      rw [ih st _ (by omega) hblr (fgets_read_not_mem_snd hnul)]
      simp [fgets_read_append]

/-- Without numbering and squeezing, `cat_process_file` copies a text without
NUL characters unchanged. -/
theorem cat_process_file_plain (ctx : cat_app_context)
    (hn : ctx.option_enabled CAT_OPTION_PRINT_LINENUM = false)
    (hb : ctx.option_enabled CAT_OPTION_PRINT_LINENUM_NONBLANK = false)
    (hs : ctx.option_enabled CAT_OPTION_SQUEEZE_BLANK = false)
    (fp : List Char) (hnul : NUL ∉ fp) :
    cat_process_file ctx fp = some fp :=
  cat_process_run_plain ctx _ hn hb hs fp.length _ fp (Nat.le_refl _) (Nat.zero_le _) hnul

theorem cat_process_files_loop_plain (ctx : cat_app_context) (w : World)
    (hn : ctx.option_enabled CAT_OPTION_PRINT_LINENUM = false)
    (hb : ctx.option_enabled CAT_OPTION_PRINT_LINENUM_NONBLANK = false)
    (hs : ctx.option_enabled CAT_OPTION_SQUEEZE_BLANK = false)
    (files : List (Option (List Char))) (eff : cat_effects)
    (hfiles : ∀ entry ∈ files, readable_text w entry) (hstdin : NUL ∉ eff.stdin) :
    (cat_process_files_loop ctx w files eff).map cat_effects.out =
      some (eff.out ++ concat_sources w eff.stdin files) := by
  induction files generalizing eff with
  | nil => simp [cat_process_files_loop, concat_sources]
  | cons entry files ih =>
    have hrest : ∀ e ∈ files, readable_text w e := fun e he =>
      hfiles e (List.mem_cons_of_mem _ he)
    cases entry with
    | none =>
      simp only [cat_process_files_loop, cat_process_stdin,
        cat_process_file_plain ctx hn hb hs eff.stdin hstdin, Option.map_some',
        Option.some_bind, concat_sources]
      rw [ih _ hrest (by simp)]
      simp
    | some path =>
      have hp := hfiles (some path) (List.mem_cons_self _ _)
      simp only [readable_text] at hp
      simp only [cat_process_files_loop, concat_sources, file_content]
      cases hopen : w.fopen path with
      | error reason => simp [hopen] at hp
      | ok fp =>
        simp only [hopen] at hp
        simp only [hp.2, cat_process_file_plain ctx hn hb hs fp hp.1, Option.some_bind,
          Bool.false_eq_true, if_false]
        have h := ih { eff with out := eff.out ++ fp, opened := eff.opened ++ [path] }
          hrest hstdin
        simpa using h

/-! ## C1: plain concatenation of the sources -/

/-- C1 (as amended): with number, number-nonblank and squeeze-blank disabled,
for every list of readable sources whose contents, like that of standard
input, have no NUL character, the text `cat_process_files` writes to standard
output is the concatenation in list order of what each source yields when it
is read: a file its content, the first `-` entry the content of standard
input, every later `-` entry nothing; an empty list yields standard input. -/
theorem cat_process_files_plain_output (ctx : cat_app_context) (w : World)
    (hn : ctx.option_enabled CAT_OPTION_PRINT_LINENUM = false)
    (hb : ctx.option_enabled CAT_OPTION_PRINT_LINENUM_NONBLANK = false)
    (hs : ctx.option_enabled CAT_OPTION_SQUEEZE_BLANK = false)
    (hfiles : ∀ entry ∈ ctx.files, readable_text w entry) (hstdin : NUL ∉ w.stdin) :
    (cat_process_files ctx w (cat_effects_start w)).map cat_effects.out =
      some (match ctx.files with
            | [] => w.stdin
            | _ :: _ => concat_sources w w.stdin ctx.files) := by
  unfold cat_process_files
  cases hf : ctx.files with
  | nil =>
    simp [cat_process_stdin, cat_effects_start, cat_process_files_loop,
      cat_process_file_plain ctx hn hb hs w.stdin hstdin]
  | cons entry files =>
    simp only [List.length_cons, Nat.add_one_ne_zero, if_false, Option.some_bind]
    rw [cat_process_files_loop_plain ctx w hn hb hs (entry :: files) _ (hf ▸ hfiles) hstdin]
    simp [cat_effects_start]

/-- C1, an instance: the sources `-`, `f`, `-` give standard input, then the
file, then nothing. -/
theorem cat_process_files_plain_output_witness :
    (cat_process_files (cat_context false false false [none, some ['f'], none])
        example_world (cat_effects_start example_world)).map cat_effects.out =
      some ['x', '\n', 'F', '\n'] :=
  cat_process_files_plain_output (cat_context false false false [none, some ['f'], none])
    example_world rfl rfl rfl
    (by
      intro entry h
      simp only [cat_context, List.mem_cons, List.mem_singleton, List.not_mem_nil,
        or_false] at h
      rcases h with rfl | rfl | rfl
      · trivial
      · exact ⟨by decide, by decide⟩
      · trivial)
    (by decide)

/-- C1, as stated, fails when `-` occurs twice: the second read of standard
input finds it at end-of-file, so its content is written once, not twice. -/
theorem claimed_concatenation_counterexample :
    (cat_process_files (cat_context false false false [none, none])
        example_world (cat_effects_start example_world)).map cat_effects.out =
      some ['x', '\n'] ∧
    claimed_concatenation example_world [none, none] = ['x', '\n', 'x', '\n'] := by
  decide

/-! ## Facts about chunks and lines -/

theorem fgets_read_newline_last (n : Nat) (fp : List Char) :
    '\n' ∉ (fgets_read n fp).1.dropLast := by
  induction n generalizing fp with
  | zero => simp [fgets_read]
  | succ n ih =>
    cases fp with
    | nil => simp [fgets_read]
    | cons c fp =>
      by_cases hc : c = '\n'
      · simp [fgets_read, hc]
      · simp only [fgets_read, hc, if_false]
        intro hm
        have hsub := List.dropLast_subset (c :: (fgets_read n fp).1) hm
        cases hchunk : (fgets_read n fp).1 with
        | nil => simp [hchunk] at hm
        | cons d t =>
          rw [hchunk, List.dropLast_cons₂] at hm
          rcases List.mem_cons.mp hm with h | h
          · exact hc h.symm
          · exact ih fp (hchunk ▸ h)

theorem logical_lines_flatten (s : List Char) : (logical_lines s).flatten = s := by
  induction s with
  | nil => rfl
  | cons c s ih =>
    by_cases hc : c = '\n'
    · simp [logical_lines, hc, ih]
    · simp only [logical_lines, hc, if_false]
      cases hl : logical_lines s with
      | nil => rw [hl] at ih; simp at ih; simp [← ih]
      | cons line lines => rw [hl] at ih; simp at ih; simp [← ih]

/-- Every logical line is non-empty and has no newline before its last
character. -/
theorem logical_lines_shape (s : List Char) :
    ∀ line ∈ logical_lines s, line ≠ [] ∧ '\n' ∉ line.dropLast := by
  induction s with
  | nil => simp [logical_lines]
  | cons c s ih =>
    by_cases hc : c = '\n'
    · simp only [logical_lines, hc, if_true]
      intro line hl
      rcases List.mem_cons.mp hl with rfl | h
      · simp
      · exact ih line h
    · simp only [logical_lines, hc, if_false]
      cases hls : logical_lines s with
      | nil =>
        intro line hl
        simp only [List.mem_singleton] at hl
        subst hl
        simp
      | cons l ls =>
        rw [hls] at ih
        intro line hl
        rcases List.mem_cons.mp hl with rfl | h
        · have hl0 := ih l (List.mem_cons_self _ _)
          refine ⟨by simp, ?_⟩
          obtain ⟨d, t, rfl⟩ := List.exists_cons_of_ne_nil hl0.1
          rw [List.dropLast_cons₂]
          intro hm
          rcases List.mem_cons.mp hm with h1 | h1
          · exact hc h1.symm
          · exact hl0.2 h1
        · exact ih line (List.mem_cons_of_mem _ h)

/-- Every logical line but the last ends with a newline. -/
theorem logical_lines_terminated (s : List Char) :
    ∀ line ∈ (logical_lines s).dropLast, ends_in_newline line = true := by
  induction s with
  | nil => simp [logical_lines]
  | cons c s ih =>
    by_cases hc : c = '\n'
    · simp only [logical_lines, hc, if_true]
      cases hls : logical_lines s with
      | nil => simp
      | cons l ls =>
        rw [hls] at ih
        rw [List.dropLast_cons₂]
        intro line hl
        rcases List.mem_cons.mp hl with rfl | h
        · simp [ends_in_newline]
        · exact ih line h
    · simp only [logical_lines, hc, if_false]
      cases hls : logical_lines s with
      | nil => simp
      | cons l ls =>
        rw [hls] at ih
        cases ls with
        | nil => simp
        | cons l2 ls2 =>
          rw [List.dropLast_cons₂] at ih ⊢
          intro line hl
          rcases List.mem_cons.mp hl with rfl | h
          · have h0 := ih l (List.mem_cons_self _ _)
            have hne : l ≠ [] := by
              intro e
              rw [e] at h0
              simp [ends_in_newline] at h0
            obtain ⟨d, t, rfl⟩ := List.exists_cons_of_ne_nil hne
            simpa [ends_in_newline, List.getLast?_cons_cons] using h0
          · exact ih line (List.mem_cons_of_mem _ h)

theorem number_lines_cons (k : Nat) (line : List Char) (lines : List (List Char)) :
    number_lines k (line :: lines) = (number_field k ++ line) :: number_lines (k + 1) lines := by
  simp [number_lines, List.enumFrom]

/-- Numbering a text that starts with a chunk: a non-empty piece with no
newline before its last character. -/
theorem number_stream_chunk (k : Nat) (continued : Bool) (chunk rest : List Char)
    (hne : chunk ≠ []) (hnl : '\n' ∉ chunk.dropLast) :
    number_stream k continued (chunk ++ rest) =
      (if continued then [] else number_field k) ++ chunk ++
        (if ends_in_newline chunk then number_stream (k + 1) false rest
         else number_stream k true rest) := by
  induction chunk generalizing continued with
  | nil => exact absurd rfl hne
  | cons c t ih =>
    cases t with
    | nil =>
      by_cases hc : c = '\n'
      · simp [number_stream, ends_in_newline, hc]
      · simp [number_stream, ends_in_newline, hc]
    | cons d t =>
      rw [List.dropLast_cons₂] at hnl
      have hc : c ≠ '\n' := fun e => hnl (e ▸ List.mem_cons_self _ _)
      have hrest : '\n' ∉ (d :: t).dropLast := fun h => hnl (List.mem_cons_of_mem _ h)
      show number_stream k continued (c :: ((d :: t) ++ rest)) = _
      rw [number_stream, if_neg hc, ih true (by simp) hrest]
      simp [ends_in_newline, List.getLast?_cons_cons]

/-- The character-by-character numbering is the numbering of the logical
lines. -/
theorem number_stream_eq_lines (k : Nat) (continued : Bool) (s : List Char) :
    number_stream k continued s =
      match logical_lines s with
      | [] => []
      | line :: lines =>
        (if continued then [] else number_field k) ++ line ++
          (number_lines (k + 1) lines).flatten := by
  induction s generalizing k continued with
  | nil => rfl
  | cons c s ih =>
    by_cases hc : c = '\n'
    · simp only [number_stream, logical_lines, hc, if_true]
      rw [ih (k + 1) false]
      cases logical_lines s with
      | nil => simp [number_lines]
      | cons line lines => simp [number_lines_cons]
    · simp only [number_stream, logical_lines, hc, if_false]
      rw [ih k true]
      cases logical_lines s with
      | nil => simp [number_lines]
      | cons line lines => simp

theorem number_stream_fresh (k : Nat) (s : List Char) :
    number_stream k false s = (number_lines k (logical_lines s)).flatten := by
  rw [number_stream_eq_lines]
  cases logical_lines s with
  | nil => simp [number_lines]
  | cons line lines => simp [number_lines_cons]

/-! ## Numbering every line (number without number-nonblank) -/

theorem ends_in_newline_count {str : List Char} (h : ends_in_newline str = true) :
    1 ≤ str.count '\n' := by
  have hl : str.getLast? = some '\n' := by simpa [ends_in_newline] using h
  exact List.count_pos_iff.mpr (List.mem_of_getLast?_eq_some hl)

theorem cat_emit_numbered_some (st : cat_line_state) (blr : Nat) (str : List Char)
    (hne : str ≠ []) (hk : ends_in_newline str = true → st.linenum < INT_MAX) :
    cat_emit_numbered cat_format.numbered st blr str =
      some ({ linenum := if ends_in_newline str then st.linenum + 1 else st.linenum,
              blank_line_repeated := blr,
              line_continued := !ends_in_newline str },
            (if st.line_continued then [] else number_field st.linenum) ++ str) := by
  obtain ⟨c, hc⟩ : ∃ c, str.getLast? = some c := by
    cases hl : str.getLast? with
    | none => exact absurd (List.getLast?_eq_none_iff.mp hl) hne
    | some c => exact ⟨c, rfl⟩
  have hfield : printf_star_d CAT_LINENO_ADJUST st.linenum ++ [' ', ' '] =
      number_field st.linenum := rfl
  by_cases hnl : c = '\n'
  · subst hnl
    have he : ends_in_newline str = true := by simp [ends_in_newline, hc]
    have hlt := hk he
    cases hcont : st.line_continued <;>
      simp [cat_emit_numbered, fprintf_format, hc, he, int_incr, hlt, hcont, ← hfield]
  · have he : ends_in_newline str = false := by simp [ends_in_newline, hc, hnl]
    cases hcont : st.line_continued <;>
      simp [cat_emit_numbered, fprintf_format, hc, he, hnl, hcont, ← hfield]

theorem fgets_read_1023_ne_nil (c : Char) (fp : List Char) :
    (fgets_read 1023 (c :: fp)).1 ≠ [] := fgets_read_fst_ne_nil 1022 c fp

theorem fgets_read_1023_rest (c : Char) (fp : List Char) :
    (fgets_read 1023 (c :: fp)).2.length ≤ fp.length := fgets_read_rest_length 1022 c fp

theorem cat_process_chunk_number (ctx : cat_app_context) (k b : Nat) (continued : Bool)
    (buffer : List Char)
    (hn : ctx.option_enabled CAT_OPTION_PRINT_LINENUM = true)
    (hb : ctx.option_enabled CAT_OPTION_PRINT_LINENUM_NONBLANK = false)
    (hs : ctx.option_enabled CAT_OPTION_SQUEEZE_BLANK = false)
    (hblr : b ≤ 1) (hnul : NUL ∉ buffer) (hne : buffer ≠ [])
    (hk : ends_in_newline buffer = true → k < INT_MAX) :
    cat_process_chunk ctx cat_format.numbered
        { linenum := k, blank_line_repeated := b, line_continued := continued } buffer =
      some ({ linenum := if ends_in_newline buffer then k + 1 else k,
              blank_line_repeated := b,
              line_continued := !ends_in_newline buffer },
            (if continued then [] else number_field k) ++ buffer) := by
  simp only [cat_process_chunk, cat_blank_update, hn, hb, hs, c_str_of_not_mem hnul,
    Bool.false_eq_true, if_false, Option.some_bind, hblr, if_true]
  exact cat_emit_numbered_some _ b buffer hne hk

theorem cat_process_run_number (ctx : cat_app_context)
    (hn : ctx.option_enabled CAT_OPTION_PRINT_LINENUM = true)
    (hb : ctx.option_enabled CAT_OPTION_PRINT_LINENUM_NONBLANK = false)
    (hs : ctx.option_enabled CAT_OPTION_SQUEEZE_BLANK = false)
    (n : Nat) (k b : Nat) (continued : Bool) (fp : List Char) (hlen : fp.length ≤ n)
    (hblr : b ≤ 1) (hnul : NUL ∉ fp)
    (hk : k + fp.count '\n' ≤ INT_MAX) :
    cat_process_run ctx cat_format.numbered
        { linenum := k, blank_line_repeated := b, line_continued := continued } fp =
      some (number_stream k continued fp) := by
  induction n generalizing k continued fp with
  | zero =>
    have : fp = [] := List.length_eq_zero.mp (Nat.le_zero.mp hlen)
    subst this
    simp [cat_process_run_nil, number_stream]
  | succ n ih =>
    cases fp with
    | nil => simp [cat_process_run_nil, number_stream]
    | cons c fp =>
      have hr := fgets_read_1023_rest c fp
      have happ := fgets_read_append 1023 (c :: fp)
      have hne := fgets_read_1023_ne_nil c fp
      have hnl := fgets_read_newline_last 1023 (c :: fp)
      have hcount : (c :: fp).count '\n' =
          (fgets_read 1023 (c :: fp)).1.count '\n' + (fgets_read 1023 (c :: fp)).2.count '\n' := by
        rw [← List.count_append, happ]
      simp only [List.length_cons] at hlen
      have hk1 : ends_in_newline (fgets_read 1023 (c :: fp)).1 = true → k < INT_MAX :=
        fun he => by
          have := ends_in_newline_count he
          omega
      rw [cat_process_run_cons,
        cat_process_chunk_number ctx k b continued _ hn hb hs hblr
          (fgets_read_not_mem_fst hnul) hne hk1]
      simp only [Option.some_bind]
      rw [ih _ _ (fgets_read 1023 (c :: fp)).2 (by omega) (fgets_read_not_mem_snd hnul)]
      · conv => rhs; rw [← happ]
        rw [number_stream_chunk _ _ _ _ hne hnl]
        cases he : ends_in_newline (fgets_read 1023 (c :: fp)).1 <;> simp
      · by_cases he : ends_in_newline (fgets_read 1023 (c :: fp)).1 = true
        · have := ends_in_newline_count he
          simp only [he, if_true]
          omega
        · simp only [he, if_false, Bool.false_eq_true]
          omega

/-- With number enabled and number-nonblank and squeeze-blank disabled,
`cat_process_file` writes the text with a number field before every logical
line, as long as the counter stays in the range of `int`. -/
theorem cat_process_file_number (ctx : cat_app_context)
    (hn : ctx.option_enabled CAT_OPTION_PRINT_LINENUM = true)
    (hb : ctx.option_enabled CAT_OPTION_PRINT_LINENUM_NONBLANK = false)
    (hs : ctx.option_enabled CAT_OPTION_SQUEEZE_BLANK = false)
    (fp : List Char) (hnul : NUL ∉ fp) (hk : fp.count '\n' < INT_MAX) :
    cat_process_file ctx fp = some (number_stream 1 false fp) := by
  have hf : cat_choose_format ctx = cat_format.numbered := by simp [cat_choose_format, hn]
  rw [cat_process_file_eq_run, hf]
  exact cat_process_run_number ctx hn hb hs fp.length 1 0 false fp (Nat.le_refl _)
    (Nat.zero_le _) hnul (by omega)

theorem is_terminated_line_ne_nil {line : List Char} (h : is_terminated_line line) :
    line ≠ [] := by
  intro e
  rw [e] at h
  simp [is_terminated_line] at h

theorem is_terminated_line_ends {line : List Char} (h : is_terminated_line line) :
    ends_in_newline line = true := by
  simp [ends_in_newline, h.1]

theorem is_terminated_line_count {line : List Char} (h : is_terminated_line line) :
    line.count '\n' = 1 := by
  have hne := is_terminated_line_ne_nil h
  have hlast : line.getLast hne = '\n' := by
    have := h.1
    rw [List.getLast?_eq_getLast _ hne] at this
    exact Option.some.inj this
  have hsplit := List.dropLast_append_getLast hne
  rw [← hsplit, List.count_append, hlast, List.count_eq_zero_of_not_mem h.2]
  simp

theorem number_stream_lines (k : Nat) (lines : List (List Char))
    (hlines : ∀ line ∈ lines, is_terminated_line line) :
    number_stream k false lines.flatten = (number_lines k lines).flatten := by
  induction lines generalizing k with
  | nil => simp [number_lines, number_stream]
  | cons line lines ih =>
    have hl := hlines line (List.mem_cons_self _ _)
    rw [List.flatten_cons, number_stream_chunk k false line _ (is_terminated_line_ne_nil hl) hl.2,
      is_terminated_line_ends hl, number_lines_cons, List.flatten_cons,
      ih (k + 1) (fun l h => hlines l (List.mem_cons_of_mem _ h))]
    simp

theorem count_newline_lines (lines : List (List Char))
    (hlines : ∀ line ∈ lines, is_terminated_line line) :
    lines.flatten.count '\n' = lines.length := by
  induction lines with
  | nil => rfl
  | cons line lines ih =>
    rw [List.flatten_cons, List.count_append,
      is_terminated_line_count (hlines line (List.mem_cons_self _ _)),
      ih (fun l h => hlines l (List.mem_cons_of_mem _ h)), List.length_cons]
    omega

/-! ## C2: numbering of newline-terminated lines -/

/-- C2: with number enabled and number-nonblank and squeeze-blank disabled,
for an input made of `k` newline-terminated lines (no NUL character, fewer
lines than `INT_MAX`; in particular when every line fits in one read),
`cat_process_file` writes exactly `k` lines, the `i`-th being the decimal
number `i` right-justified in a field of width 6, two spaces, and the `i`-th
input line unchanged. -/
theorem cat_process_file_number_lines (ctx : cat_app_context)
    (hn : ctx.option_enabled CAT_OPTION_PRINT_LINENUM = true)
    (hb : ctx.option_enabled CAT_OPTION_PRINT_LINENUM_NONBLANK = false)
    (hs : ctx.option_enabled CAT_OPTION_SQUEEZE_BLANK = false)
    (lines : List (List Char))
    (hlines : ∀ line ∈ lines, is_terminated_line line ∧ NUL ∉ line)
    (hcount : lines.length < INT_MAX) :
    cat_process_file ctx lines.flatten =
      some ((lines.enumFrom 1).map fun p => number_field p.1 ++ p.2).flatten ∧
    ((lines.enumFrom 1).map fun p => number_field p.1 ++ p.2).length = lines.length := by
  have hterm : ∀ line ∈ lines, is_terminated_line line := fun l h => (hlines l h).1
  have hnul : NUL ∉ lines.flatten := by
    intro hm
    obtain ⟨l, hl, hc⟩ := List.mem_flatten.mp hm
    exact (hlines l hl).2 hc
  refine ⟨?_, by simp⟩
  rw [cat_process_file_number ctx hn hb hs _ hnul (by rw [count_newline_lines lines hterm]; exact hcount),
    number_stream_lines 1 lines hterm]
  rfl

/-- C2 at the lines `"a\n"`, `"b\n"`, `"c\n"`. -/
theorem cat_process_file_number_lines_witness :
    cat_process_file (cat_context true false false [])
        [['a', '\n'], ['b', '\n'], ['c', '\n']].flatten =
      some "     1  a\n     2  b\n     3  c\n".toList :=
  (cat_process_file_number_lines (cat_context true false false []) rfl rfl rfl
    [['a', '\n'], ['b', '\n'], ['c', '\n']]
    (by
      intro line h
      simp only [List.mem_cons, List.mem_singleton, List.not_mem_nil, or_false] at h
      rcases h with rfl | rfl | rfl <;> exact ⟨⟨by decide, by decide⟩, by decide⟩)
    (by decide)).1.trans (by decide)

/-! ## C3: one number per logical line, also for long lines -/

/-- C3: with number enabled and number-nonblank and squeeze-blank disabled,
for every input (no NUL character, fewer newlines than `INT_MAX`), whatever
the length of its lines, the output of `cat_process_file` is the sequence of
the logical lines of the input, the `k`-th with the number `k` in front and
nothing inserted anywhere else. -/
theorem cat_process_file_number_logical_lines (ctx : cat_app_context)
    (hn : ctx.option_enabled CAT_OPTION_PRINT_LINENUM = true)
    (hb : ctx.option_enabled CAT_OPTION_PRINT_LINENUM_NONBLANK = false)
    (hs : ctx.option_enabled CAT_OPTION_SQUEEZE_BLANK = false)
    (input : List Char) (hnul : NUL ∉ input) (hk : input.count '\n' < INT_MAX) :
    cat_process_file ctx input =
      some (((logical_lines input).enumFrom 1).map fun p => number_field p.1 ++ p.2).flatten ∧
    (logical_lines input).flatten = input ∧
    (∀ line ∈ logical_lines input, line ≠ [] ∧ '\n' ∉ line.dropLast) ∧
    (∀ line ∈ (logical_lines input).dropLast, ends_in_newline line = true) := by
  refine ⟨?_, logical_lines_flatten input, logical_lines_shape input,
    logical_lines_terminated input⟩
  rw [cat_process_file_number ctx hn hb hs input hnul hk, number_stream_fresh]
  rfl

/-- C3 at a line of 1030 characters, read in two chunks, followed by a short
line. -/
theorem cat_process_file_number_logical_lines_witness :
    NUL ∉ List.replicate 1030 'a' ++ ['\n', 'b', '\n'] ∧
    (List.replicate 1030 'a' ++ ['\n', 'b', '\n']).count '\n' < INT_MAX ∧
    cat_process_file (cat_context true false false [])
        (List.replicate 1030 'a' ++ ['\n', 'b', '\n']) =
      some (((logical_lines (List.replicate 1030 'a' ++ ['\n', 'b', '\n'])).enumFrom 1).map
        fun p => number_field p.1 ++ p.2).flatten :=
  ⟨by decide, by decide,
   (cat_process_file_number_logical_lines (cat_context true false false []) rfl rfl rfl
    (List.replicate 1030 'a' ++ ['\n', 'b', '\n']) (by decide) (by decide)).1⟩

/-- The output for that input, evaluated: the long line carries the number 1
once, the short line the number 2. -/
theorem cat_process_file_number_long_line :
    cat_process_file (cat_context true false false [])
        (List.replicate 1030 'a' ++ ['\n', 'b', '\n']) =
      some ("     1  ".toList ++ List.replicate 1030 'a' ++ ['\n'] ++
            "     2  b\n".toList) := by
  decide

/-! ## C4 and C5: chunks of one character -/

theorem logical_lines_append_line (body rest : List Char) (h : '\n' ∉ body) :
    logical_lines (body ++ '\n' :: rest) = (body ++ ['\n']) :: logical_lines rest := by
  induction body with
  | nil => simp [logical_lines]
  | cons c body ih =>
    have hc : c ≠ '\n' := fun e => h (e ▸ List.mem_cons_self _ _)
    have hb : '\n' ∉ body := fun hm => h (List.mem_cons_of_mem _ hm)
    show logical_lines (c :: (body ++ '\n' :: rest)) = _
    rw [logical_lines, if_neg hc, ih hb]
    rfl

theorem logical_lines_replicate (n : Nat) (rest : List Char) :
    logical_lines (List.replicate n 'a' ++ '\n' :: rest) =
      (List.replicate n 'a' ++ ['\n']) :: logical_lines rest :=
  logical_lines_append_line _ rest (by
    intro h
    have := List.eq_of_mem_replicate h
    exact absurd this (by decide))

/-- The example of C4 holds: with only number-nonblank enabled, `"a\n"`, a
blank line and `"b\n"` give the numbers 1 and 2 and an unnumbered blank line. -/
theorem cat_process_file_nonblank_example :
    cat_process_file (cat_context false true false []) "a\n\nb\n".toList =
      some "     1  a\n\n     2  b\n".toList := by
  decide

/-- The example of C5 holds: with only squeeze-blank enabled, three blank lines
and `"x\n"` give one blank line and `"x\n"`. -/
theorem cat_process_file_squeeze_example :
    cat_process_file (cat_context false false true []) "\n\n\nx\n".toList =
      some "\nx\n".toList := by
  decide

/-- C4: the code on a failing input.  With only number-nonblank enabled and
the input made of a line of 1023 letters and its newline, then the line
`"b\n"`, the newline of the first line is read as a chunk of its own, of
length 1; the code takes it for a blank line and leaves the continuation flag
set, so the second line is written without a number, where the numbering of
the non-blank logical lines gives it the number 2. -/
theorem cat_process_file_nonblank_long_line :
    cat_process_file (cat_context false true false [])
        (List.replicate 1023 'a' ++ ['\n', 'b', '\n']) =
      some ("     1  ".toList ++ List.replicate 1023 'a' ++ ['\n'] ++ ['b', '\n']) ∧
    (number_nonblank_lines 1
        (logical_lines (List.replicate 1023 'a' ++ ['\n', 'b', '\n']))).flatten =
      "     1  ".toList ++ List.replicate 1023 'a' ++ ['\n'] ++ "     2  b\n".toList := by
  refine ⟨by decide, ?_⟩
  rw [logical_lines_replicate]
  have h1 : is_blank_line (List.replicate 1023 'a' ++ ['\n']) = false := by
    simp [is_blank_line]
  simp only [number_nonblank_lines, h1]
  decide

/-- The code with only number-nonblank enabled on a last line of one character
without a newline: the line is written without a number. -/
theorem cat_process_file_nonblank_short_last_line :
    cat_process_file (cat_context false true false []) ['a', '\n', 'b'] =
      some "     1  a\nb".toList := by
  decide

/-- C5: the code on a failing input.  With only squeeze-blank enabled and the
input made of a line of 1023 letters and its newline, one blank line, and the
line `"x\n"`, the newline of the first line is read as a chunk of its own and
counted as a blank line, so the only blank line of the input is suppressed,
where squeezing the logical lines leaves the input unchanged. -/
theorem cat_process_file_squeeze_long_line :
    cat_process_file (cat_context false false true [])
        (List.replicate 1023 'a' ++ ['\n', '\n', 'x', '\n']) =
      some (List.replicate 1023 'a' ++ ['\n', 'x', '\n']) ∧
    (squeeze_blank_lines false
        (logical_lines (List.replicate 1023 'a' ++ ['\n', '\n', 'x', '\n']))).flatten =
      List.replicate 1023 'a' ++ ['\n', '\n', 'x', '\n'] := by
  refine ⟨by decide, ?_⟩
  rw [logical_lines_replicate]
  have h1 : is_blank_line (List.replicate 1023 'a' ++ ['\n']) = false := by
    simp [is_blank_line]
  simp only [squeeze_blank_lines, h1]
  decide

/-- The code with only squeeze-blank enabled on a blank line followed by a last
line of one character without a newline: the character is not written. -/
theorem cat_process_file_squeeze_short_last_line :
    cat_process_file (cat_context false false true []) ['\n', 'y'] = some ['\n'] := by
  decide

/-! ## Squeeze-blank together with numbering -/

theorem fgets_read_complete (n : Nat) (fp : List Char) :
    ends_in_newline (fgets_read n fp).1 = true ∨ (fgets_read n fp).1.length = n ∨
      (fgets_read n fp).2 = [] := by
  induction n generalizing fp with
  | zero => simp [fgets_read]
  | succ n ih =>
    cases fp with
    | nil => simp [fgets_read]
    | cons c fp =>
      by_cases hc : c = '\n'
      · simp [fgets_read, hc, ends_in_newline]
      · simp only [fgets_read, hc, if_false]
        rcases ih fp with h | h | h
        · left
          have hne : (fgets_read n fp).1 ≠ [] := by
            intro e
            rw [e] at h
            simp [ends_in_newline] at h
          obtain ⟨d, t, hdt⟩ := List.exists_cons_of_ne_nil hne
          rw [hdt] at h ⊢
          simpa [ends_in_newline, List.getLast?_cons_cons] using h
        · right; left
          simp [h]
        · right; right
          exact h

/-- Reading back a chunk: a text that starts with a complete chunk is read as
that chunk, whatever follows. -/
theorem fgets_read_of_chunk (n : Nat) (chunk rest : List Char)
    (hnl : '\n' ∉ chunk.dropLast) (hlen : chunk.length ≤ n)
    (hfull : ends_in_newline chunk = true ∨ chunk.length = n ∨ rest = []) :
    fgets_read n (chunk ++ rest) = (chunk, rest) := by
  induction n generalizing chunk with
  | zero =>
    have : chunk = [] := List.length_eq_zero.mp (Nat.le_zero.mp hlen)
    subst this
    simp [fgets_read]
  | succ n ih =>
    cases chunk with
    | nil =>
      rcases hfull with h | h | h
      · simp [ends_in_newline] at h
      · simp at h
      · subst h
        simp [fgets_read]
    | cons c t =>
      cases t with
      | nil =>
        by_cases hc : c = '\n'
        · simp [fgets_read, hc]
        · have hfull2 : ends_in_newline ([] : List Char) = true ∨ ([] : List Char).length = n ∨
              rest = [] := by
            rcases hfull with h | h | h
            · simp [ends_in_newline, hc] at h
            · right; left
              simp at h
              simp [h]
            · right; right
              exact h
          have := ih [] (by simp) (by simp) hfull2
          simp only [List.nil_append] at this
          simp [fgets_read, hc, this]
      | cons d t =>
        rw [List.dropLast_cons₂] at hnl
        have hc : c ≠ '\n' := fun e => hnl (e ▸ List.mem_cons_self _ _)
        have hrest : '\n' ∉ (d :: t).dropLast := fun h => hnl (List.mem_cons_of_mem _ h)
        have hfull2 : ends_in_newline (d :: t) = true ∨ (d :: t).length = n ∨ rest = [] := by
          rcases hfull with h | h | h
          · left
            simpa [ends_in_newline, List.getLast?_cons_cons] using h
          · right; left
            simpa using h
          · right; right
            exact h
        have := ih (d :: t) hrest (by simpa using hlen) hfull2
        show fgets_read (n + 1) (c :: ((d :: t) ++ rest)) = _
        rw [fgets_read, if_neg hc, this]

theorem cat_process_run_chunk (ctx : cat_app_context) (format : cat_format)
    (st : cat_line_state) (chunk rest : List Char) (hne : chunk ≠ [])
    (hnl : '\n' ∉ chunk.dropLast) (hlen : chunk.length ≤ 1023)
    (hfull : ends_in_newline chunk = true ∨ chunk.length = 1023 ∨ rest = []) :
    cat_process_run ctx format st (chunk ++ rest) =
      (cat_process_chunk ctx format st chunk).bind fun r =>
        (cat_process_run ctx format r.1 rest).map fun out => r.2 ++ out := by
  obtain ⟨c, t, rfl⟩ := List.exists_cons_of_ne_nil hne
  have h := cat_process_run_cons ctx format st c (t ++ rest)
  rw [← List.cons_append, fgets_read_of_chunk 1023 (c :: t) rest hnl hlen hfull] at h
  exact h

theorem cat_emit_numbered_blank (format : cat_format) (k b1 b0 blr blr0 : Nat)
    (continued : Bool) (str : List Char) :
    cat_emit_numbered format
        { linenum := k, blank_line_repeated := b1, line_continued := continued } blr str =
      (cat_emit_numbered format
        { linenum := k, blank_line_repeated := b0, line_continued := continued } blr0 str).map
        fun r => ({ linenum := r.1.linenum, blank_line_repeated := blr,
                    line_continued := r.1.line_continued }, r.2) := by
  unfold cat_emit_numbered
  cases continued <;> cases format <;> cases str.getLast? with
  | none => simp [fprintf_format]
  | some c =>
    by_cases hc : c = '\n'
    · cases hi : int_incr k <;> simp [fprintf_format, hc, hi]
    · simp [fprintf_format, hc]

theorem cat_process_chunk_squeeze_only (ctx : cat_app_context) (format : cat_format)
    (hn : ctx.option_enabled CAT_OPTION_PRINT_LINENUM = false)
    (hb : ctx.option_enabled CAT_OPTION_PRINT_LINENUM_NONBLANK = false)
    (hs : ctx.option_enabled CAT_OPTION_SQUEEZE_BLANK = true)
    (k b : Nat) (continued : Bool) (chunk : List Char) (hnul : NUL ∉ chunk) :
    cat_process_chunk ctx format
        { linenum := k, blank_line_repeated := b, line_continued := continued } chunk =
      (blank_count_next b chunk.length).map fun blr =>
        ({ linenum := k, blank_line_repeated := blr, line_continued := continued },
         if blr ≤ 1 then chunk else []) := by
  simp only [cat_process_chunk, cat_blank_update, hn, hb, hs, c_str_of_not_mem hnul,
    blank_count_next, if_true, Bool.false_eq_true, if_false]
  cases (if chunk.length > 1 then some 0 else int_incr b) <;> rfl

theorem cat_process_chunk_unsqueezed_state (ctx : cat_app_context) (format : cat_format)
    (hs : ctx.option_enabled CAT_OPTION_SQUEEZE_BLANK = false)
    (st : cat_line_state) (chunk : List Char) (r : cat_line_state × List Char)
    (h : cat_process_chunk ctx format st chunk = some r) :
    r.1.blank_line_repeated = st.blank_line_repeated := by
  simp only [cat_process_chunk, cat_blank_update, hs, Bool.false_eq_true, if_false,
    Option.some_bind] at h
  have hemit : ∀ r, cat_emit_numbered format st st.blank_line_repeated (c_str chunk) = some r →
      r.1.blank_line_repeated = st.blank_line_repeated := by
    intro r hr
    unfold cat_emit_numbered at hr
    cases hout : (if st.line_continued = true then some (c_str chunk)
        else fprintf_format format CAT_LINENO_ADJUST st.linenum (c_str chunk)) with
    | none => rw [hout] at hr; simp at hr
    | some out =>
      rw [hout] at hr
      simp only [Option.some_bind] at hr
      cases hl : (c_str chunk).getLast? with
      | none => rw [hl] at hr; simp at hr
      | some c =>
        rw [hl] at hr
        by_cases hc : c = '\n'
        · simp only [hc, if_true] at hr
          cases hi : int_incr st.linenum with
          | none => rw [hi] at hr; simp at hr
          | some l =>
            rw [hi] at hr
            simp only [Option.map_some', Option.some.injEq] at hr
            rw [← hr]
        · simp only [hc, if_false, Option.some.injEq] at hr
          rw [← hr]
  split at h
  · split at h
    · exact hemit r h
    · simp only [Option.some.injEq] at h
      rw [← h]
  · split at h
    · split at h
      · exact hemit r h
      · simp only [Option.some.injEq] at h
        rw [← h]
    · simp only [Option.some.injEq] at h
      rw [← h]

theorem cat_process_chunk_with_squeeze (ctx ctx_m : cat_app_context) (format : cat_format)
    (hs : ctx.option_enabled CAT_OPTION_SQUEEZE_BLANK = true)
    (hs_m : ctx_m.option_enabled CAT_OPTION_SQUEEZE_BLANK = false)
    (hn_m : ctx_m.option_enabled CAT_OPTION_PRINT_LINENUM =
      ctx.option_enabled CAT_OPTION_PRINT_LINENUM)
    (hb_m : ctx_m.option_enabled CAT_OPTION_PRINT_LINENUM_NONBLANK =
      ctx.option_enabled CAT_OPTION_PRINT_LINENUM_NONBLANK)
    (k b1 b0 : Nat) (hb0 : b0 ≤ 1) (continued : Bool) (chunk : List Char)
    (hnul : NUL ∉ chunk) :
    cat_process_chunk ctx format
        { linenum := k, blank_line_repeated := b1, line_continued := continued } chunk =
      (blank_count_next b1 chunk.length).bind fun blr =>
        if blr ≤ 1 then
          (cat_process_chunk ctx_m format
            { linenum := k, blank_line_repeated := b0, line_continued := continued } chunk).map
            fun r => ({ linenum := r.1.linenum, blank_line_repeated := blr,
                        line_continued := r.1.line_continued }, r.2)
        else
          some ({ linenum := k, blank_line_repeated := blr, line_continued := continued }, []) := by
  simp only [cat_process_chunk, cat_blank_update, hs, hs_m, hn_m, hb_m, c_str_of_not_mem hnul,
    blank_count_next, if_true, Bool.false_eq_true, if_false, Option.some_bind]
  by_cases hL : chunk.length > 1
  · simp only [hL, if_true, Option.some_bind, Nat.zero_le]
    cases ctx.option_enabled CAT_OPTION_PRINT_LINENUM_NONBLANK <;>
      cases ctx.option_enabled CAT_OPTION_PRINT_LINENUM <;>
      simp [hb0, cat_emit_numbered_blank format k b1 b0 0 b0]
  · simp only [hL, if_false]
    cases hi : int_incr b1 with
    | none => rfl
    | some blr =>
      simp only [Option.some_bind]
      by_cases hblr : blr ≤ 1
      · cases ctx.option_enabled CAT_OPTION_PRINT_LINENUM_NONBLANK <;>
          cases ctx.option_enabled CAT_OPTION_PRINT_LINENUM <;>
          simp [hb0, hblr, hL, cat_emit_numbered_blank format k b1 b0 blr b0]
      · cases ctx.option_enabled CAT_OPTION_PRINT_LINENUM_NONBLANK <;>
          cases ctx.option_enabled CAT_OPTION_PRINT_LINENUM <;>
          simp [hblr, hL]

/-- The run with squeeze-blank and a numbering mode is the run of the numbering
mode on the output of the run with squeeze-blank alone. -/
theorem cat_process_run_squeeze_compose (ctx ctx_s ctx_m : cat_app_context)
    (format format_s : cat_format)
    (hs : ctx.option_enabled CAT_OPTION_SQUEEZE_BLANK = true)
    (hn_s : ctx_s.option_enabled CAT_OPTION_PRINT_LINENUM = false)
    (hb_s : ctx_s.option_enabled CAT_OPTION_PRINT_LINENUM_NONBLANK = false)
    (hs_s : ctx_s.option_enabled CAT_OPTION_SQUEEZE_BLANK = true)
    (hs_m : ctx_m.option_enabled CAT_OPTION_SQUEEZE_BLANK = false)
    (hn_m : ctx_m.option_enabled CAT_OPTION_PRINT_LINENUM =
      ctx.option_enabled CAT_OPTION_PRINT_LINENUM)
    (hb_m : ctx_m.option_enabled CAT_OPTION_PRINT_LINENUM_NONBLANK =
      ctx.option_enabled CAT_OPTION_PRINT_LINENUM_NONBLANK)
    (b0 : Nat) (hb0 : b0 ≤ 1) (ks : Nat) (cs : Bool)
    (n : Nat) (k b1 : Nat) (continued : Bool) (fp : List Char)
    (hlen : fp.length ≤ n) (hnul : NUL ∉ fp) :
    cat_process_run ctx format
        { linenum := k, blank_line_repeated := b1, line_continued := continued } fp =
      (cat_process_run ctx_s format_s
        { linenum := ks, blank_line_repeated := b1, line_continued := cs } fp).bind fun mid =>
        cat_process_run ctx_m format
          { linenum := k, blank_line_repeated := b0, line_continued := continued } mid := by
  induction n generalizing k b1 continued fp with
  | zero =>
    have : fp = [] := List.length_eq_zero.mp (Nat.le_zero.mp hlen)
    subst this
    simp [cat_process_run_nil]
  | succ n ih =>
    cases fp with
    | nil => simp [cat_process_run_nil]
    | cons c fp =>
      have hr := fgets_read_1023_rest c fp
      have hne := fgets_read_1023_ne_nil c fp
      have hnl := fgets_read_newline_last 1023 (c :: fp)
      have hle := fgets_read_length_le 1023 (c :: fp)
      have hfull := fgets_read_complete 1023 (c :: fp)
      have hnul1 : NUL ∉ (fgets_read 1023 (c :: fp)).1 := fgets_read_not_mem_fst hnul
      have hnul2 : NUL ∉ (fgets_read 1023 (c :: fp)).2 := fgets_read_not_mem_snd hnul
      simp only [List.length_cons] at hlen
      have hlen2 : (fgets_read 1023 (c :: fp)).2.length ≤ n := by omega
      rw [cat_process_run_cons, cat_process_run_cons,
        cat_process_chunk_with_squeeze ctx ctx_m format hs hs_m hn_m hb_m k b1 b0 hb0 continued
          _ hnul1,
        cat_process_chunk_squeeze_only ctx_s format_s hn_s hb_s hs_s ks b1 cs _ hnul1]
      generalize (fgets_read 1023 (c :: fp)).1 = chunk at *
      generalize (fgets_read 1023 (c :: fp)).2 = rest at *
      cases blank_count_next b1 chunk.length with
      | none => rfl
      | some blr =>
        simp only [Option.some_bind, Option.map_some']
        by_cases hblr : blr ≤ 1
        · simp only [hblr, if_true]
          have hmid : ∀ mid, cat_process_run ctx_s format_s
              { linenum := ks, blank_line_repeated := blr, line_continued := cs } rest =
                some mid →
              cat_process_run ctx_m format
                { linenum := k, blank_line_repeated := b0, line_continued := continued }
                (chunk ++ mid) =
              (cat_process_chunk ctx_m format
                { linenum := k, blank_line_repeated := b0, line_continued := continued }
                chunk).bind fun r =>
                (cat_process_run ctx_m format r.1 mid).map fun out => r.2 ++ out := by
            intro mid hm
            apply cat_process_run_chunk ctx_m format _ chunk mid hne hnl hle
            rcases hfull with h | h | h
            · exact Or.inl h
            · exact Or.inr (Or.inl h)
            · right; right
              subst h
              rw [cat_process_run_nil] at hm
              exact (Option.some.inj hm).symm
          cases hsrun : cat_process_run ctx_s format_s
              { linenum := ks, blank_line_repeated := blr, line_continued := cs } rest with
          | none =>
            simp only [Option.map_none', Option.none_bind]
            cases hM : cat_process_chunk ctx_m format
                { linenum := k, blank_line_repeated := b0, line_continued := continued }
                chunk with
            | none => rfl
            | some r =>
              simp only [Option.map_some', Option.some_bind]
              rw [ih r.1.linenum blr r.1.line_continued rest hlen2 hnul2, hsrun]
              rfl
          | some mid =>
            simp only [Option.map_some', Option.some_bind]
            rw [hmid mid hsrun]
            cases hM : cat_process_chunk ctx_m format
                { linenum := k, blank_line_repeated := b0, line_continued := continued }
                chunk with
            | none => rfl
            | some r =>
              have hst := cat_process_chunk_unsqueezed_state ctx_m format hs_m _ chunk r hM
              simp only at hst
              simp only [Option.map_some', Option.some_bind]
              rw [ih r.1.linenum blr r.1.line_continued rest hlen2 hnul2, hsrun]
              simp only [Option.some_bind]
              have hr1 : r.1 =
                  { linenum := r.1.linenum, blank_line_repeated := b0,
                    line_continued := r.1.line_continued } := by
                rw [← hst]
              rw [← hr1]
        · simp only [hblr, if_false, Option.some_bind, List.nil_append]
          rw [ih k blr continued rest hlen2 hnul2]
          cases cat_process_run ctx_s format_s
              { linenum := ks, blank_line_repeated := blr, line_continued := cs } rest with
          | none => rfl
          | some mid => simp

/-! ## The formatter is defined on every text short enough for its counters -/

theorem cat_process_chunk_total (ctx : cat_app_context) (k b : Nat) (continued : Bool)
    (chunk : List Char) (hnul : NUL ∉ chunk) (hne : chunk ≠ [])
    (hk : k < INT_MAX) (hb : b < INT_MAX) :
    ∃ r, cat_process_chunk ctx (cat_choose_format ctx)
        { linenum := k, blank_line_repeated := b, line_continued := continued } chunk = some r ∧
      r.1.linenum ≤ k + 1 ∧ r.1.blank_line_repeated ≤ b + 1 := by
  have hemit : ∀ blr, blr ≤ b + 1 →
      ∃ r, cat_emit_numbered cat_format.numbered
        { linenum := k, blank_line_repeated := b, line_continued := continued } blr chunk =
          some r ∧ r.1.linenum ≤ k + 1 ∧ r.1.blank_line_repeated ≤ b + 1 := by
    intro blr hblr
    refine ⟨_, cat_emit_numbered_some _ blr chunk hne (fun _ => hk), ?_, hblr⟩
    simp only
    split <;> omega
  have hblank : ∃ blr, cat_blank_update ctx
      { linenum := k, blank_line_repeated := b, line_continued := continued } chunk.length =
        some blr ∧ blr ≤ b + 1 := by
    unfold cat_blank_update
    split
    · split
      · exact ⟨0, rfl, Nat.zero_le _⟩
      · exact ⟨b + 1, by simp [int_incr, hb], Nat.le_refl _⟩
    · exact ⟨b, rfl, Nat.le_succ _⟩
  obtain ⟨blr, hblr, hle⟩ := hblank
  simp only [cat_process_chunk, c_str_of_not_mem hnul, hblr, Option.some_bind]
  cases hbf : ctx.option_enabled CAT_OPTION_PRINT_LINENUM_NONBLANK
  · cases hnf : ctx.option_enabled CAT_OPTION_PRINT_LINENUM
    · simp only [Bool.false_eq_true, if_false]
      exact ⟨_, rfl, Nat.le_succ _, hle⟩
    · have hf : cat_choose_format ctx = cat_format.numbered := by
        simp [cat_choose_format, hnf]
      simp only [Bool.false_eq_true, if_false, if_true, hf]
      split
      · exact hemit blr hle
      · exact ⟨_, rfl, Nat.le_succ _, hle⟩
  · have hf : cat_choose_format ctx = cat_format.numbered := by
      simp [cat_choose_format, hbf]
    simp only [if_true, hf]
    split
    · exact hemit blr hle
    · exact ⟨_, rfl, Nat.le_succ _, hle⟩

/-- On a text without NUL character and short enough for the two counters,
the loop of `cat_process_file` ends with an output: no undefined behaviour is
met and the fuel suffices. -/
theorem cat_process_run_total (ctx : cat_app_context) (n : Nat) (k b : Nat)
    (continued : Bool) (fp : List Char) (hlen : fp.length ≤ n) (hnul : NUL ∉ fp)
    (hk : k + fp.length ≤ INT_MAX) (hb : b + fp.length ≤ INT_MAX) :
    ∃ out, cat_process_run ctx (cat_choose_format ctx)
      { linenum := k, blank_line_repeated := b, line_continued := continued } fp = some out := by
  induction n generalizing k b continued fp with
  | zero =>
    have : fp = [] := List.length_eq_zero.mp (Nat.le_zero.mp hlen)
    subst this
    exact ⟨[], cat_process_run_nil _ _ _⟩
  | succ n ih =>
    cases fp with
    | nil => exact ⟨[], cat_process_run_nil _ _ _⟩
    | cons c fp =>
      have hr := fgets_read_1023_rest c fp
      have hne := fgets_read_1023_ne_nil c fp
      simp only [List.length_cons] at hlen hk hb
      obtain ⟨r, hchunk, hk1, hb1⟩ := cat_process_chunk_total ctx k b continued _
        (fgets_read_not_mem_fst hnul) hne (by omega) (by omega)
      obtain ⟨out, hout⟩ := ih r.1.linenum r.1.blank_line_repeated r.1.line_continued
        (fgets_read 1023 (c :: fp)).2 (by omega) (fgets_read_not_mem_snd hnul)
        (by omega) (by omega)
      refine ⟨r.2 ++ out, ?_⟩
      rw [cat_process_run_cons, hchunk]
      simp only [Option.some_bind]
      rw [show r.1 = { linenum := r.1.linenum, blank_line_repeated := r.1.blank_line_repeated,
                       line_continued := r.1.line_continued } from rfl, hout]
      rfl

theorem cat_process_file_total (ctx : cat_app_context) (fp : List Char) (hnul : NUL ∉ fp)
    (hlen : fp.length < INT_MAX) : ∃ out, cat_process_file ctx fp = some out := by
  rw [cat_process_file_eq_run]
  exact cat_process_run_total ctx fp.length 1 0 false fp (Nat.le_refl _) hnul (by omega)
    (by omega)

/-! ## Squeeze-blank composed with numbering -/

/-- The output of squeeze-blank alone is the input with some chunks left out. -/
theorem cat_process_run_squeeze_sublist (ctx : cat_app_context) (format : cat_format)
    (hn : ctx.option_enabled CAT_OPTION_PRINT_LINENUM = false)
    (hb : ctx.option_enabled CAT_OPTION_PRINT_LINENUM_NONBLANK = false)
    (hs : ctx.option_enabled CAT_OPTION_SQUEEZE_BLANK = true)
    (n : Nat) (k b : Nat) (continued : Bool) (fp mid : List Char)
    (hlen : fp.length ≤ n) (hnul : NUL ∉ fp)
    (hrun : cat_process_run ctx format
      { linenum := k, blank_line_repeated := b, line_continued := continued } fp = some mid) :
    mid.Sublist fp := by
  induction n generalizing b fp mid with
  | zero =>
    have : fp = [] := List.length_eq_zero.mp (Nat.le_zero.mp hlen)
    subst this
    rw [cat_process_run_nil] at hrun
    rw [← Option.some.inj hrun]
  | succ n ih =>
    cases fp with
    | nil =>
      rw [cat_process_run_nil] at hrun
      rw [← Option.some.inj hrun]
    | cons c fp =>
      have hr := fgets_read_1023_rest c fp
      have happ := fgets_read_append 1023 (c :: fp)
      simp only [List.length_cons] at hlen
      rw [cat_process_run_cons,
        cat_process_chunk_squeeze_only ctx format hn hb hs k b continued _
          (fgets_read_not_mem_fst hnul)] at hrun
      cases hnext : blank_count_next b (fgets_read 1023 (c :: fp)).1.length with
      | none => rw [hnext] at hrun; simp at hrun
      | some blr =>
        rw [hnext] at hrun
        simp only [Option.map_some', Option.some_bind] at hrun
        cases hrest : cat_process_run ctx format
            { linenum := k, blank_line_repeated := blr, line_continued := continued }
            (fgets_read 1023 (c :: fp)).2 with
        | none => rw [hrest] at hrun; simp at hrun
        | some mid2 =>
          rw [hrest] at hrun
          simp only [Option.map_some', Option.some.injEq] at hrun
          have hsub := ih blr _ mid2 (by omega) (fgets_read_not_mem_snd hnul) hrest
          have hout : (if blr ≤ 1 then (fgets_read 1023 (c :: fp)).1 else []).Sublist
              (fgets_read 1023 (c :: fp)).1 := by
            split
            · exact List.Sublist.refl _
            · exact List.nil_sublist _
          have hall := List.Sublist.append hout hsub
          rw [happ] at hall
          rw [← hrun]
          exact hall

/-- The composition of squeeze-blank and numbering: for a context with
squeeze-blank enabled, the context `ctx_m` with the same numbering options and squeeze-blank disabled, and the context `ctx_s`
with squeeze-blank alone, on every input without NUL character the output of
`cat_process_file` with both equals the output of the numbering mode applied
to the output of squeeze-blank alone.  When the input has fewer than `INT_MAX`
characters all three outputs exist, and with number as the numbering mode the
output is the sequence of the logical lines of the squeeze-blank output with
the numbers 1, 2, 3, ... in front: no number is spent on a suppressed line. -/
theorem cat_process_file_squeeze_compose (ctx ctx_s ctx_m : cat_app_context)
    (hs : ctx.option_enabled CAT_OPTION_SQUEEZE_BLANK = true)
    (hn_s : ctx_s.option_enabled CAT_OPTION_PRINT_LINENUM = false)
    (hb_s : ctx_s.option_enabled CAT_OPTION_PRINT_LINENUM_NONBLANK = false)
    (hs_s : ctx_s.option_enabled CAT_OPTION_SQUEEZE_BLANK = true)
    (hs_m : ctx_m.option_enabled CAT_OPTION_SQUEEZE_BLANK = false)
    (hn_m : ctx_m.option_enabled CAT_OPTION_PRINT_LINENUM =
      ctx.option_enabled CAT_OPTION_PRINT_LINENUM)
    (hb_m : ctx_m.option_enabled CAT_OPTION_PRINT_LINENUM_NONBLANK =
      ctx.option_enabled CAT_OPTION_PRINT_LINENUM_NONBLANK)
    (input : List Char) (hnul : NUL ∉ input) :
    cat_process_file ctx input =
      (cat_process_file ctx_s input).bind (fun mid => cat_process_file ctx_m mid) ∧
    (input.length < INT_MAX →
      ∃ mid out, cat_process_file ctx_s input = some mid ∧
        cat_process_file ctx_m mid = some out ∧ cat_process_file ctx input = some out ∧
        (ctx.option_enabled CAT_OPTION_PRINT_LINENUM = true →
          ctx.option_enabled CAT_OPTION_PRINT_LINENUM_NONBLANK = false →
          out = (((logical_lines mid).enumFrom 1).map fun p =>
            number_field p.1 ++ p.2).flatten)) := by
  have hfmt : cat_choose_format ctx_m = cat_choose_format ctx := by
    simp [cat_choose_format, hn_m, hb_m]
  have heq : cat_process_file ctx input =
      (cat_process_file ctx_s input).bind (fun mid => cat_process_file ctx_m mid) := by
    simp only [cat_process_file_eq_run, hfmt]
    exact cat_process_run_squeeze_compose ctx ctx_s ctx_m _ _ hs hn_s hb_s hs_s hs_m hn_m hb_m
      0 (Nat.zero_le _) 1 false input.length 1 0 false input (Nat.le_refl _) hnul
  refine ⟨heq, fun hlen => ?_⟩
  obtain ⟨mid, hmid⟩ := cat_process_file_total ctx_s input hnul hlen
  obtain ⟨out, hout⟩ := cat_process_file_total ctx input hnul hlen
  have hm : cat_process_file ctx_m mid = some out := by
    rw [heq, hmid] at hout
    exact hout
  refine ⟨mid, out, hmid, hm, hout, fun hn hb => ?_⟩
  have hsub : mid.Sublist input :=
    cat_process_run_squeeze_sublist ctx_s _ hn_s hb_s hs_s input.length 1 0 false input mid
      (Nat.le_refl _) hnul hmid
  have hnul2 : NUL ∉ mid := fun h => hnul (hsub.subset h)
  have hcount : mid.count '\n' < INT_MAX :=
    Nat.lt_of_le_of_lt (Nat.le_trans (List.count_le_length _ _) hsub.length_le) hlen
  have h3 := (cat_process_file_number ctx_m (hn_m.trans hn) (hb_m.trans hb) hs_m mid hnul2
    hcount)
  rw [hm, number_stream_fresh] at h3
  exact Option.some.inj h3

/-- The composition on the lines `"a\n"`, three blank lines, `"b\n"`, with
number and squeeze-blank: the output has the numbers 1, 2, 3. -/
theorem cat_process_file_squeeze_compose_witness :
    cat_process_file (cat_context true false true []) "a\n\n\n\nb\n".toList =
      (cat_process_file (cat_context false false true []) "a\n\n\n\nb\n".toList).bind
        (fun mid => cat_process_file (cat_context true false false []) mid) ∧
    cat_process_file (cat_context true false true []) "a\n\n\n\nb\n".toList =
      some "     1  a\n     2  \n     3  b\n".toList :=
  ⟨(cat_process_file_squeeze_compose (cat_context true false true [])
      (cat_context false false true []) (cat_context true false false [])
      rfl rfl rfl rfl rfl rfl rfl "a\n\n\n\nb\n".toList (by decide)).1,
   by decide⟩

/-- The same with number-nonblank in place of number. -/
theorem cat_process_file_squeeze_compose_nonblank :
    cat_process_file (cat_context false true true []) "a\n\n\n\nb\n".toList =
      (cat_process_file (cat_context false false true []) "a\n\n\n\nb\n".toList).bind
        (fun mid => cat_process_file (cat_context false true false []) mid) ∧
    cat_process_file (cat_context false true true []) "a\n\n\n\nb\n".toList =
      some "     1  a\n\n     2  b\n".toList := by
  decide

/-! ## C6: a run of blank lines under squeeze-blank and numbering -/

/-- C6: the code on a failing input.  The input is a line of 1023 letters and
its newline, one blank line, and the line `"x\n"`.  With number and
squeeze-blank the code writes the long line with the number 1 and `"x\n"` with
the number 2: the only blank line of the input is gone, where a run of blank
lines collapsed to one line leaves the blank line with the number 2 and `"x\n"`
with the number 3.  With number-nonblank and squeeze-blank the code writes the
long line with the number 1 and `"x\n"` without a number, where the blank line
is kept unnumbered and `"x\n"` gets the number 2. -/
theorem cat_process_file_squeeze_number_long_line :
    cat_process_file (cat_context true false true [])
        (List.replicate 1023 'a' ++ ['\n', '\n', 'x', '\n']) =
      some ("     1  ".toList ++ List.replicate 1023 'a' ++ ['\n'] ++
            "     2  x\n".toList) ∧
    (number_lines 1 (squeeze_blank_lines false
        (logical_lines (List.replicate 1023 'a' ++ ['\n', '\n', 'x', '\n'])))).flatten =
      "     1  ".toList ++ List.replicate 1023 'a' ++ ['\n'] ++
        "     2  \n     3  x\n".toList ∧
    cat_process_file (cat_context false true true [])
        (List.replicate 1023 'a' ++ ['\n', '\n', 'x', '\n']) =
      some ("     1  ".toList ++ List.replicate 1023 'a' ++ ['\n'] ++ ['x', '\n']) ∧
    (number_nonblank_lines 1 (squeeze_blank_lines false
        (logical_lines (List.replicate 1023 'a' ++ ['\n', '\n', 'x', '\n'])))).flatten =
      "     1  ".toList ++ List.replicate 1023 'a' ++ ['\n'] ++
        "\n     2  x\n".toList := by
  have h1 : is_blank_line (List.replicate 1023 'a' ++ ['\n']) = false := by
    simp [is_blank_line]
  have hsq : squeeze_blank_lines false
      (logical_lines (List.replicate 1023 'a' ++ ['\n', '\n', 'x', '\n'])) =
      [List.replicate 1023 'a' ++ ['\n'], ['\n'], ['x', '\n']] := by
    rw [logical_lines_replicate]
    simp only [squeeze_blank_lines, h1]
    decide
  refine ⟨by decide, ?_, by decide, ?_⟩
  · rw [hsq]
    decide
  · rw [hsq]
    simp only [number_nonblank_lines, h1]
    decide

/-! ## Options that the formatter does not read -/

theorem cat_process_loop_congr (ctx ctx2 : cat_app_context) (format : cat_format)
    (h : ∀ st buffer, cat_process_chunk ctx format st buffer =
      cat_process_chunk ctx2 format st buffer)
    (fuel : Nat) (st : cat_line_state) (fp : List Char) :
    cat_process_loop ctx format fuel st fp = cat_process_loop ctx2 format fuel st fp := by
  induction fuel generalizing st fp with
  | zero => rfl
  | succ fuel ih =>
    simp only [cat_process_loop]
    cases fgets CAT_BUFSIZE fp with
    | none => rfl
    | some r =>
      simp only [h]
      cases cat_process_chunk ctx2 format st r.1 with
      | none => rfl
      | some r2 => simp only [Option.some_bind, ih]

/-- The output of `cat_process_file` depends on the context only through
squeeze-blank, number-nonblank and, when number-nonblank is disabled, number. -/
theorem cat_process_file_congr (ctx ctx2 : cat_app_context)
    (hs : ctx.option_enabled CAT_OPTION_SQUEEZE_BLANK =
      ctx2.option_enabled CAT_OPTION_SQUEEZE_BLANK)
    (hb : ctx.option_enabled CAT_OPTION_PRINT_LINENUM_NONBLANK =
      ctx2.option_enabled CAT_OPTION_PRINT_LINENUM_NONBLANK)
    (hn : ctx.option_enabled CAT_OPTION_PRINT_LINENUM_NONBLANK = true ∨
      ctx.option_enabled CAT_OPTION_PRINT_LINENUM =
        ctx2.option_enabled CAT_OPTION_PRINT_LINENUM)
    (fp : List Char) : cat_process_file ctx fp = cat_process_file ctx2 fp := by
  have hfmt : cat_choose_format ctx = cat_choose_format ctx2 := by
    rcases hn with h | h
    · have h2 := hb ▸ h
      simp [cat_choose_format, h, h2]
    · simp [cat_choose_format, h, hb]
  unfold cat_process_file
  rw [hfmt]
  apply cat_process_loop_congr
  intro st buffer
  rcases hn with h | h
  · have h2 := hb ▸ h
    simp [cat_process_chunk, cat_blank_update, hs, h, h2]
  · simp [cat_process_chunk, cat_blank_update, hs, hb, h]

theorem cat_process_files_loop_congr (ctx ctx2 : cat_app_context) (w : World)
    (h : ∀ fp, cat_process_file ctx fp = cat_process_file ctx2 fp)
    (files : List (Option (List Char))) (eff : cat_effects) :
    cat_process_files_loop ctx w files eff = cat_process_files_loop ctx2 w files eff := by
  induction files generalizing eff with
  | nil => rfl
  | cons entry files ih =>
    cases entry with
    | none => simp only [cat_process_files_loop, cat_process_stdin, h, ih]
    | some path =>
      simp only [cat_process_files_loop, h, ih]

theorem cat_process_files_congr (ctx ctx2 : cat_app_context) (w : World)
    (h : ∀ fp, cat_process_file ctx fp = cat_process_file ctx2 fp)
    (hfiles : ctx.files = ctx2.files) (eff : cat_effects) :
    cat_process_files ctx w eff = cat_process_files ctx2 w eff := by
  simp only [cat_process_files, cat_process_stdin, h, hfiles,
    cat_process_files_loop_congr ctx ctx2 w h]

/-! ## C7: number-nonblank overrides number -/

/-- C7: for every context (so for every setting of squeeze-blank and
show-nonprinting) and every input, the output of `cat_process_file` with
number-nonblank and number both enabled equals its output with number-nonblank
enabled and number disabled. -/
theorem cat_process_file_nonblank_overrides_number (ctx : cat_app_context)
    (input : List Char) :
    cat_process_file
        (cat_with_option (cat_with_option ctx CAT_OPTION_PRINT_LINENUM_NONBLANK true)
          CAT_OPTION_PRINT_LINENUM true) input =
      cat_process_file
        (cat_with_option (cat_with_option ctx CAT_OPTION_PRINT_LINENUM_NONBLANK true)
          CAT_OPTION_PRINT_LINENUM false) input := by
  apply cat_process_file_congr
  · simp [cat_with_option]
  · simp [cat_with_option]
  · left
    simp [cat_with_option]

/-! ## C8: show-nonprinting is accepted and has no effect -/

theorem cat_parse_argument_short_v (p : cat_program) :
    cat_parse_argument p ['-', 'v'] = cat_enable p CAT_OPTION_SHOW_NONPRINTING := rfl

theorem cat_parse_argument_long_show_nonprinting (p : cat_program) :
    cat_parse_argument p "--show-nonprinting".toList =
      cat_enable p CAT_OPTION_SHOW_NONPRINTING := rfl

/-- C8: for every program state, world and input, the output of
`cat_process_file` and the effects of `cat_run` are the same with
show-nonprinting enabled as with it disabled, and parsing `-v` or
`--show-nonprinting` leaves the invalid-option marker as it was and enables
the option. -/
theorem show_nonprinting_no_effect (p : cat_program) (w : World) (input : List Char) :
    cat_process_file (cat_with_option p.context CAT_OPTION_SHOW_NONPRINTING true) input =
      cat_process_file (cat_with_option p.context CAT_OPTION_SHOW_NONPRINTING false) input ∧
    cat_run (cat_program_with_option p CAT_OPTION_SHOW_NONPRINTING true) w =
      cat_run (cat_program_with_option p CAT_OPTION_SHOW_NONPRINTING false) w ∧
    (cat_parse_argument p ['-', 'v']).invalid_option = p.invalid_option ∧
    (cat_parse_argument p "--show-nonprinting".toList).invalid_option = p.invalid_option ∧
    (cat_parse_argument p ['-', 'v']).context.option_enabled CAT_OPTION_SHOW_NONPRINTING =
      true ∧
    (cat_parse_argument p "--show-nonprinting".toList).context.option_enabled
      CAT_OPTION_SHOW_NONPRINTING = true := by
  have hfile : ∀ fp,
      cat_process_file (cat_with_option p.context CAT_OPTION_SHOW_NONPRINTING true) fp =
        cat_process_file (cat_with_option p.context CAT_OPTION_SHOW_NONPRINTING false) fp := by
    intro fp
    apply cat_process_file_congr
    · simp [cat_with_option]
    · simp [cat_with_option]
    · right
      simp [cat_with_option]
  refine ⟨hfile input, ?_, ?_, ?_, ?_, ?_⟩
  · simp only [cat_run, cat_program_with_option]
    cases p.invalid_option with
    | some option => rfl
    | none =>
      have hh : ∀ v, (cat_with_option p.context CAT_OPTION_SHOW_NONPRINTING v).option_enabled
          CAT_OPTION_HELP = p.context.option_enabled CAT_OPTION_HELP := by
        intro v
        simp [cat_with_option]
      have hv : ∀ v, (cat_with_option p.context CAT_OPTION_SHOW_NONPRINTING v).option_enabled
          CAT_OPTION_VERSION = p.context.option_enabled CAT_OPTION_VERSION := by
        intro v
        simp [cat_with_option]
      simp only [hh, hv]
      rw [cat_process_files_congr _ _ w hfile rfl]
  · rw [cat_parse_argument_short_v]
    rfl
  · rw [cat_parse_argument_long_show_nonprinting]
    rfl
  · rw [cat_parse_argument_short_v]
    simp [cat_enable]
  · rw [cat_parse_argument_long_show_nonprinting]
    simp [cat_enable]

/-! ## Facts about the parser -/

theorem cat_parse_short_letter_unknown (option : List Char) (p : cat_program) (c : Char)
    (h : c ∉ short_option_letters) :
    cat_parse_short_letter option p c = cat_set_invalid p option := by
  simp only [short_option_letters, List.mem_cons, List.mem_singleton, List.not_mem_nil,
    or_false, not_or] at h
  obtain ⟨h1, h2, h3, h4, h5, h6⟩ := h
  simp [cat_parse_short_letter, cat_option_indices, cat_options, List.find?,
    Ne.symm h1, Ne.symm h2, Ne.symm h3, Ne.symm h4, Ne.symm h5, Ne.symm h6]

theorem cat_parse_long_option_unknown (p : cat_program) (arg : List Char)
    (h : arg ∉ long_option_names) :
    cat_parse_long_option p arg = cat_set_invalid p arg := by
  simp [long_option_names] at h
  simp [cat_parse_long_option, cat_option_indices, cat_options, List.find?, h]

theorem cat_parse_long_option_invalid (p : cat_program) (arg : List Char)
    (h : p.invalid_option.isSome = true) :
    (cat_parse_long_option p arg).invalid_option.isSome = true := by
  unfold cat_parse_long_option
  split
  · exact h
  · rfl

theorem cat_parse_short_letter_invalid (option : List Char) (p : cat_program) (c : Char)
    (h : p.invalid_option.isSome = true) :
    (cat_parse_short_letter option p c).invalid_option.isSome = true := by
  unfold cat_parse_short_letter
  split
  · exact h
  · rfl

theorem cat_parse_short_letters_invalid (option letters : List Char) (p : cat_program)
    (h : p.invalid_option.isSome = true) :
    (letters.foldl (cat_parse_short_letter option) p).invalid_option.isSome = true := by
  induction letters generalizing p with
  | nil => exact h
  | cons c letters ih =>
    exact ih _ (cat_parse_short_letter_invalid option p c h)

theorem cat_parse_short_letters_unknown (option letters : List Char) (p : cat_program)
    (h : ∃ c ∈ letters, c ∉ short_option_letters) :
    (letters.foldl (cat_parse_short_letter option) p).invalid_option.isSome = true := by
  induction letters generalizing p with
  | nil =>
    obtain ⟨c, hc, _⟩ := h
    exact absurd hc (List.not_mem_nil c)
  | cons d letters ih =>
    by_cases hd : d ∉ short_option_letters
    · rw [List.foldl_cons, cat_parse_short_letter_unknown option p d hd]
      exact cat_parse_short_letters_invalid option letters _ rfl
    · obtain ⟨c, hc, hcu⟩ := h
      rcases List.mem_cons.mp hc with rfl | hmem
      · exact absurd hcu hd
      · exact ih _ ⟨c, hmem, hcu⟩

theorem cat_parse_argument_invalid (p : cat_program) (arg : List Char)
    (h : p.invalid_option.isSome = true) :
    (cat_parse_argument p arg).invalid_option.isSome = true := by
  unfold cat_parse_argument
  split
  · exact cat_parse_long_option_invalid p arg h
  · split
    · exact h
    · split
      · exact cat_parse_short_letters_invalid _ _ p h
      · exact h

theorem cat_parse_argument_unrecognized (p : cat_program) (arg : List Char)
    (h : unrecognized_option arg) :
    (cat_parse_argument p arg).invalid_option.isSome = true := by
  unfold cat_parse_argument
  rcases h with ⟨h1, h2⟩ | ⟨h1, h2, h3, h4⟩
  · rw [if_pos h1, cat_parse_long_option_unknown p arg h2]
    rfl
  · rw [if_neg h1, if_neg h2, if_pos h3]
    exact cat_parse_short_letters_unknown _ _ p h4

theorem cat_parse_arguments_invalid (args : List (List Char)) (p : cat_program)
    (h : p.invalid_option.isSome = true) :
    (args.foldl cat_parse_argument p).invalid_option.isSome = true := by
  induction args generalizing p with
  | nil => exact h
  | cons arg args ih => exact ih _ (cat_parse_argument_invalid p arg h)

theorem cat_parse_arguments_unrecognized (args : List (List Char)) (p : cat_program)
    (h : ∃ arg ∈ args, unrecognized_option arg) :
    (args.foldl cat_parse_argument p).invalid_option.isSome = true := by
  induction args generalizing p with
  | nil =>
    obtain ⟨arg, harg, _⟩ := h
    exact absurd harg (List.not_mem_nil arg)
  | cons a args ih =>
    by_cases ha : unrecognized_option a
    · exact cat_parse_arguments_invalid args _ (cat_parse_argument_unrecognized p a ha)
    · obtain ⟨arg, harg, hu⟩ := h
      rcases List.mem_cons.mp harg with rfl | hmem
      · exact absurd hu ha
      · exact ih _ ⟨arg, hmem, hu⟩

/-! ## C9: an unrecognized option suppresses everything else -/

/-- C9: for every argument vector whose arguments (the program name apart)
contain an unrecognized option, wherever it stands and whatever else the
vector holds, and for every world, the run writes the invalid-option message
to standard error and does nothing else: standard output stays empty (no help
text, no version text, no source text), no path is opened and standard input
is not read. -/
theorem cat_main_unrecognized_option (argv : List (List Char)) (w : World)
    (h : ∃ arg ∈ argv.tail, unrecognized_option arg) :
    ∃ option, (cat_app_context_init argv).invalid_option = some option ∧
      cat_main argv w =
        some { out := [], err := cat_print_invalid_option option, opened := [],
               stdin := w.stdin } := by
  have hsome := cat_parse_arguments_unrecognized argv.tail
    { context := { option_enabled := fun _ => false, files := [] },
      invalid_option := none } h
  obtain ⟨option, hopt⟩ := Option.isSome_iff_exists.mp hsome
  refine ⟨option, hopt, ?_⟩
  have hinit : (cat_app_context_init argv).invalid_option = some option := hopt
  simp only [cat_main, cat_run, hinit, cat_effects_start]

/-- C9 at the arguments `--help`, `f`, `--bogus`, `-V`: only the message about
`--bogus` is written. -/
theorem cat_main_unrecognized_option_witness :
    cat_main ["cat".toList, "--help".toList, ['f'], "--bogus".toList, "-V".toList]
        example_world =
      some { out := [],
             err := cat_print_invalid_option "--bogus".toList,
             opened := [], stdin := example_world.stdin } := by
  obtain ⟨option, hopt, hrun⟩ := cat_main_unrecognized_option
    ["cat".toList, "--help".toList, ['f'], "--bogus".toList, "-V".toList] example_world
    ⟨"--bogus".toList, by decide, Or.inl ⟨by decide, by decide⟩⟩
  have : option = "--bogus".toList := by
    have h2 : (cat_app_context_init
      ["cat".toList, "--help".toList, ['f'], "--bogus".toList, "-V".toList]).invalid_option =
        some "--bogus".toList := by decide
    rw [h2] at hopt
    exact (Option.some.inj hopt).symm
  rw [hrun, this]

/-! ## C10: the source list -/

theorem cat_parse_long_option_files (p : cat_program) (arg : List Char) :
    (cat_parse_long_option p arg).context.files = p.context.files := by
  unfold cat_parse_long_option
  split <;> rfl

theorem cat_parse_short_letter_files (option : List Char) (p : cat_program) (c : Char) :
    (cat_parse_short_letter option p c).context.files = p.context.files := by
  unfold cat_parse_short_letter
  split <;> rfl

theorem cat_parse_short_letters_files (option letters : List Char) (p : cat_program) :
    (letters.foldl (cat_parse_short_letter option) p).context.files = p.context.files := by
  induction letters generalizing p with
  | nil => rfl
  | cons c letters ih =>
    rw [List.foldl_cons, ih, cat_parse_short_letter_files]

theorem cat_parse_argument_files (p : cat_program) (arg : List Char) :
    (cat_parse_argument p arg).context.files = p.context.files ++ expected_sources [arg] := by
  unfold cat_parse_argument
  by_cases h1 : arg.take 2 = ['-', '-']
  · have hhead : arg.head? = some '-' := by
      cases arg with
      | nil => simp at h1
      | cons c t =>
        cases t with
        | nil => simp at h1
        | cons d t => simp at h1; simp [h1.1]
    have hne : arg ≠ ['-'] := by
      intro e
      rw [e] at h1
      simp at h1
    rw [if_pos h1, cat_parse_long_option_files]
    simp [expected_sources, hhead, hne]
  · rw [if_neg h1]
    by_cases h2 : arg = ['-']
    · rw [if_pos h2]
      subst h2
      simp [expected_sources, cat_add_file]
    · rw [if_neg h2]
      by_cases h3 : arg.head? = some '-'
      · rw [if_pos h3]
        unfold cat_parse_short_option
        rw [cat_parse_short_letters_files]
        simp [expected_sources, h2, h3]
      · rw [if_neg h3]
        simp [expected_sources, h2, h3, cat_add_file]

theorem expected_sources_append (xs ys : List (List Char)) :
    expected_sources (xs ++ ys) = expected_sources xs ++ expected_sources ys := by
  simp [expected_sources]

theorem cat_parse_arguments_files (args : List (List Char)) (p : cat_program) :
    (args.foldl cat_parse_argument p).context.files =
      p.context.files ++ expected_sources args := by
  induction args generalizing p with
  | nil => simp [expected_sources]
  | cons arg args ih =>
    rw [List.foldl_cons, ih, cat_parse_argument_files, List.append_assoc,
      ← expected_sources_append]
    rfl

theorem expected_sources_length (args : List (List Char)) :
    (expected_sources args).length ≤ args.length := by
  simp only [expected_sources, List.length_map]
  exact List.length_filter_le _ _

/-- C10: for every argument vector, the source list built by
`cat_app_context_init` is the list of the arguments after the program name
that do not start with `-` or are exactly `-`, in their order, each `-` as the
standard input marker and every other one as the file name itself; it is never
longer than the list of those arguments. -/
theorem cat_app_context_init_files (argv : List (List Char)) :
    (cat_app_context_init argv).context.files =
      ((argv.tail.filter fun arg => decide (arg.head? ≠ some '-' ∨ arg = ['-'])).map fun arg =>
        if arg = ['-'] then none else some arg) ∧
    (cat_app_context_init argv).context.files.length ≤ argv.tail.length := by
  have h : (cat_app_context_init argv).context.files = expected_sources argv.tail := by
    unfold cat_app_context_init cat_parse_options
    rw [cat_parse_arguments_files]
    rfl
  refine ⟨h, ?_⟩
  rw [h]
  exact expected_sources_length _

/-- An instance: options between the sources leave their order untouched. -/
theorem cat_app_context_init_files_example :
    (cat_app_context_init
      ["cat".toList, ['b'], "-n".toList, ['-'], "--bogus".toList, ['a'], "-sx".toList,
       ['-'], []]).context.files =
      [some ['b'], none, some ['a'], none, some []] := by
  decide

/-! ## C11: short option clusters -/

theorem cat_parse_short_letter_known (option : List Char) (p : cat_program)
    (o : cat_command_option_enum) :
    cat_parse_short_letter option p (short_letter o) = cat_enable p o := by
  cases o <;> rfl

theorem short_letter_mem (o : cat_command_option_enum) :
    short_letter o ∈ short_option_letters := by
  cases o <;> decide

theorem short_letter_of_mem (c : Char) (h : c ∈ short_option_letters) :
    ∃ o, short_letter o = c := by
  simp only [short_option_letters, List.mem_cons, List.mem_singleton, List.not_mem_nil,
    or_false] at h
  rcases h with rfl | rfl | rfl | rfl | rfl | rfl
  · exact ⟨CAT_OPTION_HELP, rfl⟩
  · exact ⟨CAT_OPTION_VERSION, rfl⟩
  · exact ⟨CAT_OPTION_PRINT_LINENUM, rfl⟩
  · exact ⟨CAT_OPTION_PRINT_LINENUM_NONBLANK, rfl⟩
  · exact ⟨CAT_OPTION_SQUEEZE_BLANK, rfl⟩
  · exact ⟨CAT_OPTION_SHOW_NONPRINTING, rfl⟩

theorem short_letter_injective (o o2 : cat_command_option_enum)
    (h : short_letter o = short_letter o2) : o = o2 := by
  cases o <;> cases o2 <;> first | rfl | (exact absurd h (by decide))

/-- What one letter of a cluster does to the enabled options. -/
theorem cat_parse_short_letter_enabled (option : List Char) (p : cat_program) (c : Char)
    (o : cat_command_option_enum) :
    (cat_parse_short_letter option p c).context.option_enabled o =
      (p.context.option_enabled o || decide (short_letter o = c)) := by
  by_cases hc : c ∈ short_option_letters
  · obtain ⟨o2, rfl⟩ := short_letter_of_mem c hc
    rw [cat_parse_short_letter_known]
    by_cases ho : o = o2
    · subst ho
      simp [cat_enable]
    · have hne : short_letter o ≠ short_letter o2 := fun e => ho (short_letter_injective _ _ e)
      simp [cat_enable, ho, hne]
  · rw [cat_parse_short_letter_unknown option p c hc]
    have hne : short_letter o ≠ c := fun e => hc (e ▸ short_letter_mem o)
    simp [cat_set_invalid, hne]

/-- What one letter of a cluster does to the invalid-option marker. -/
theorem cat_parse_short_letter_marker (option : List Char) (p : cat_program) (c : Char) :
    (cat_parse_short_letter option p c).invalid_option =
      if c ∈ short_option_letters then p.invalid_option else some option := by
  by_cases hc : c ∈ short_option_letters
  · obtain ⟨o2, rfl⟩ := short_letter_of_mem c hc
    rw [cat_parse_short_letter_known, if_pos hc]
    rfl
  · rw [cat_parse_short_letter_unknown option p c hc, if_neg hc]
    rfl

theorem cat_parse_short_letters_enabled (option letters : List Char) (p : cat_program)
    (o : cat_command_option_enum) :
    (letters.foldl (cat_parse_short_letter option) p).context.option_enabled o =
      (p.context.option_enabled o || decide (short_letter o ∈ letters)) := by
  induction letters generalizing p with
  | nil => simp
  | cons c letters ih =>
    rw [List.foldl_cons, ih, cat_parse_short_letter_enabled]
    by_cases h1 : short_letter o = c
    · simp [h1]
    · by_cases h2 : short_letter o ∈ letters
      · simp [h2]
      · simp [h1, h2]

theorem cat_parse_short_letters_marker (option letters : List Char) (p : cat_program) :
    (letters.foldl (cat_parse_short_letter option) p).invalid_option =
      if ∃ c ∈ letters, c ∉ short_option_letters then some option else p.invalid_option := by
  induction letters generalizing p with
  | nil => simp
  | cons c letters ih =>
    rw [List.foldl_cons, ih, cat_parse_short_letter_marker]
    by_cases h1 : ∃ d ∈ letters, d ∉ short_option_letters
    · have h2 : ∃ d ∈ c :: letters, d ∉ short_option_letters := by
        obtain ⟨d, hd, hu⟩ := h1
        exact ⟨d, List.mem_cons_of_mem _ hd, hu⟩
      rw [if_pos h1, if_pos h2]
    · rw [if_neg h1]
      by_cases hc : c ∈ short_option_letters
      · have h2 : ¬ ∃ d ∈ c :: letters, d ∉ short_option_letters := by
          rintro ⟨d, hd, hu⟩
          rcases List.mem_cons.mp hd with rfl | hd
          · exact hu hc
          · exact h1 ⟨d, hd, hu⟩
        rw [if_pos hc, if_neg h2]
      · have h2 : ∃ d ∈ c :: letters, d ∉ short_option_letters :=
          ⟨c, List.mem_cons_self _ _, hc⟩
        rw [if_neg hc, if_pos h2]

/-- Parsing the one-letter token `-c` does to the context what the letter `c`
does inside a cluster, and records an invalid option in the same cases. -/
theorem cat_parse_argument_single_letter (option : List Char) (p q : cat_program) (c : Char)
    (hctx : q.context = p.context)
    (hinv : q.invalid_option.isSome = p.invalid_option.isSome) :
    (cat_parse_argument q ['-', c]).context = (cat_parse_short_letter option p c).context ∧
    (cat_parse_argument q ['-', c]).invalid_option.isSome =
      (cat_parse_short_letter option p c).invalid_option.isSome := by
  by_cases hc : c = '-'
  · subst hc
    have h1 : cat_parse_argument q ['-', '-'] = cat_set_invalid q ['-', '-'] := rfl
    have h2 : cat_parse_short_letter option p '-' = cat_set_invalid p option :=
      cat_parse_short_letter_unknown option p '-' (by decide)
    rw [h1, h2]
    exact ⟨hctx, rfl⟩
  · have h1 : cat_parse_argument q ['-', c] = cat_parse_short_letter [c] q c := by
      simp [cat_parse_argument, hc, cat_parse_short_option]
    rw [h1]
    by_cases hk : c ∈ short_option_letters
    · obtain ⟨o, rfl⟩ := short_letter_of_mem c hk
      rw [cat_parse_short_letter_known, cat_parse_short_letter_known]
      simp [cat_enable, hctx, hinv]
    · rw [cat_parse_short_letter_unknown _ q c hk, cat_parse_short_letter_unknown _ p c hk]
      exact ⟨hctx, rfl⟩

theorem cat_parse_single_letters (option letters : List Char) (p q : cat_program)
    (hctx : q.context = p.context)
    (hinv : q.invalid_option.isSome = p.invalid_option.isSome) :
    (letters.foldl (fun r c => cat_parse_argument r ['-', c]) q).context =
      (letters.foldl (cat_parse_short_letter option) p).context ∧
    (letters.foldl (fun r c => cat_parse_argument r ['-', c]) q).invalid_option.isSome =
      (letters.foldl (cat_parse_short_letter option) p).invalid_option.isSome := by
  induction letters generalizing p q with
  | nil => exact ⟨hctx, hinv⟩
  | cons c letters ih =>
    rw [List.foldl_cons, List.foldl_cons]
    obtain ⟨h1, h2⟩ := cat_parse_argument_single_letter option p q c hctx hinv
    exact ih _ _ h1 h2

/-- C11: for every cluster of letters `c1..ck` and every program state,
`cat_parse_short_option` enables exactly the options whose short letter occurs
in the cluster, besides those enabled before, and leaves the source list as it
was; it records an invalid option (the cluster) if and only if some letter is
not a short option letter, and otherwise leaves the marker as it was; every
letter is handled, also after an unknown one, so the enabled options (and
whether an invalid option is recorded) are those of parsing the separate
tokens `-c1`, ..., `-ck`. -/
theorem cat_parse_short_option_cluster (p : cat_program) (letters : List Char) :
    (∀ o, (cat_parse_short_option p letters).context.option_enabled o =
      (p.context.option_enabled o || decide (short_letter o ∈ letters))) ∧
    (cat_parse_short_option p letters).context.files = p.context.files ∧
    (cat_parse_short_option p letters).invalid_option =
      (if ∃ c ∈ letters, c ∉ short_option_letters then some letters
       else p.invalid_option) ∧
    (cat_parse_short_option p letters).context =
      (letters.foldl (fun r c => cat_parse_argument r ['-', c]) p).context ∧
    (cat_parse_short_option p letters).invalid_option.isSome =
      (letters.foldl (fun r c => cat_parse_argument r ['-', c]) p).invalid_option.isSome := by
  have h := cat_parse_single_letters letters letters p p rfl rfl
  exact ⟨cat_parse_short_letters_enabled letters letters p,
    cat_parse_short_letters_files letters letters p,
    cat_parse_short_letters_marker letters letters p, h.1.symm, h.2.symm⟩

/-- The example of C11: the token `-ns` enables number and squeeze-blank and
nothing else, and records no invalid option. -/
theorem cat_parse_cluster_ns :
    (cat_app_context_init ["cat".toList, "-ns".toList]).invalid_option = none ∧
    cat_option_indices.filter
        (cat_app_context_init ["cat".toList, "-ns".toList]).context.option_enabled =
      [CAT_OPTION_PRINT_LINENUM, CAT_OPTION_SQUEEZE_BLANK] ∧
    cat_option_indices.filter
        (cat_app_context_init ["cat".toList, "-nxs".toList]).context.option_enabled =
      [CAT_OPTION_PRINT_LINENUM, CAT_OPTION_SQUEEZE_BLANK] ∧
    (cat_app_context_init ["cat".toList, "-nxs".toList]).invalid_option =
      some "nxs".toList := by
  decide

/-! ## The invalid-option marker -/

theorem cat_parse_long_option_marker (p : cat_program) (arg : List Char) :
    (cat_parse_long_option p arg).invalid_option =
      if arg ∈ long_option_names then p.invalid_option else some arg := by
  by_cases h : arg ∈ long_option_names
  · rw [if_pos h]
    simp only [long_option_names, List.mem_cons, List.mem_singleton, List.not_mem_nil,
      or_false] at h
    rcases h with rfl | rfl | rfl | rfl | rfl | rfl <;> rfl
  · rw [if_neg h, cat_parse_long_option_unknown p arg h]
    rfl

/-- What one argument does to the invalid-option marker. -/
theorem cat_parse_argument_marker (p : cat_program) (arg : List Char) :
    (cat_parse_argument p arg).invalid_option =
      if unrecognized_option arg then some (offending_text arg) else p.invalid_option := by
  unfold cat_parse_argument
  by_cases h1 : arg.take 2 = ['-', '-']
  · rw [if_pos h1, cat_parse_long_option_marker]
    by_cases h2 : arg ∈ long_option_names
    · have hu : ¬ unrecognized_option arg := by
        rintro (⟨_, h⟩ | ⟨h, _⟩)
        · exact h h2
        · exact h h1
      rw [if_pos h2, if_neg hu]
    · have hu : unrecognized_option arg := Or.inl ⟨h1, h2⟩
      rw [if_neg h2, if_pos hu]
      simp [offending_text, h1]
  · rw [if_neg h1]
    by_cases h2 : arg = ['-']
    · have hu : ¬ unrecognized_option arg := by
        rintro (⟨h, _⟩ | ⟨_, h, _⟩)
        · exact h1 h
        · exact h h2
      rw [if_pos h2, if_neg hu]
      rfl
    · rw [if_neg h2]
      by_cases h3 : arg.head? = some '-'
      · rw [if_pos h3]
        unfold cat_parse_short_option
        rw [cat_parse_short_letters_marker]
        by_cases h4 : ∃ c ∈ arg.tail, c ∉ short_option_letters
        · have hu : unrecognized_option arg := Or.inr ⟨h1, h2, h3, h4⟩
          rw [if_pos h4, if_pos hu]
          simp [offending_text, h1]
        · have hu : ¬ unrecognized_option arg := by
            rintro (⟨h, _⟩ | ⟨_, _, _, h⟩)
            · exact h1 h
            · exact h4 h
          rw [if_neg h4, if_neg hu]
      · have hu : ¬ unrecognized_option arg := by
          rintro (⟨h, _⟩ | ⟨_, _, h, _⟩)
          · exact h1 h
          · exact h3 h
        rw [if_neg h3, if_neg hu]
        rfl

theorem cat_parse_arguments_marker (args : List (List Char)) (p : cat_program) :
    (args.foldl cat_parse_argument p).invalid_option =
      match (args.filter fun arg => decide (unrecognized_option arg)).getLast? with
      | some arg => some (offending_text arg)
      | none => p.invalid_option := by
  induction args generalizing p with
  | nil => rfl
  | cons a args ih =>
    rw [List.foldl_cons, ih, cat_parse_argument_marker]
    by_cases hu : unrecognized_option a
    · rw [List.filter_cons_of_pos (by simpa using hu)]
      cases hl : (args.filter fun arg => decide (unrecognized_option arg)) with
      | nil => simp [hu]
      | cons b l =>
        have hx : (b :: l).getLast? = some ((b :: l).getLast (by simp)) :=
          List.getLast?_eq_getLast _ _
        simp [List.getLast?_cons_cons, hx]
    · rw [List.filter_cons_of_neg (by simpa using hu)]
      simp [hu]

/-! ## C16: the marker holds the last unrecognized option -/

/-- C16 (as amended): for every argument vector, after `cat_app_context_init`
the invalid-option marker is empty when no argument is an unrecognized option,
and otherwise holds the text of the last argument that is one: the whole token
for a token that starts with `--`, the token without its leading `-` for a
short cluster; the error message of the run names that text. -/
theorem cat_app_context_init_marker (argv : List (List Char)) (w : World) :
    match (argv.tail.filter fun arg => decide (unrecognized_option arg)).getLast? with
    | none => (cat_app_context_init argv).invalid_option = none
    | some arg =>
      (cat_app_context_init argv).invalid_option = some (offending_text arg) ∧
      cat_main argv w =
        some { out := [], err := cat_print_invalid_option (offending_text arg),
               opened := [], stdin := w.stdin } := by
  have h : (cat_app_context_init argv).invalid_option =
      match (argv.tail.filter fun arg => decide (unrecognized_option arg)).getLast? with
      | some arg => some (offending_text arg)
      | none => none := by
    unfold cat_app_context_init cat_parse_options
    rw [cat_parse_arguments_marker]
  cases hl : (argv.tail.filter fun arg => decide (unrecognized_option arg)).getLast? with
  | none =>
    rw [hl] at h
    exact h
  | some arg =>
    rw [hl] at h
    refine ⟨h, ?_⟩
    simp [cat_main, cat_run, h, cat_effects_start]

/-- C16, as stated, fails for a short cluster: after the argument `-x` the
marker holds `x`, not the token `-x`, and the message names `x`. -/
theorem cat_marker_short_cluster_counterexample :
    (cat_app_context_init ["cat".toList, "-x".toList]).invalid_option = some ['x'] ∧
    (cat_main ["cat".toList, "-x".toList] example_world).map cat_effects.err =
      some (cat_print_invalid_option ['x']) ∧
    cat_print_invalid_option ['x'] ≠ cat_print_invalid_option ['-', 'x'] := by
  decide

/-- An instance of last-write-wins: of the unrecognized arguments `--bogus`,
`-nq` and `--what` the marker holds the last, and a later valid option does not
clear it. -/
theorem cat_marker_last_write_wins :
    (cat_app_context_init
      ["cat".toList, "--bogus".toList, "-nq".toList, "--what".toList,
       "-s".toList]).invalid_option = some "--what".toList ∧
    (cat_app_context_init
      ["cat".toList, "--bogus".toList, "-nq".toList, "-s".toList]).invalid_option =
      some "nq".toList ∧
    (cat_app_context_init ["cat".toList, "-n".toList, ['f']]).invalid_option = none := by
  decide

/-! ## C12: the order of the letters of a cluster -/

theorem cat_app_context_eq (c1 c2 : cat_app_context)
    (h1 : c1.option_enabled = c2.option_enabled) (h2 : c1.files = c2.files) : c1 = c2 := by
  cases c1
  cases c2
  simp only at h1 h2
  rw [h1, h2]

theorem cat_program_eq (p q : cat_program) (h1 : p.context = q.context)
    (h2 : p.invalid_option = q.invalid_option) : p = q := by
  cases p
  cases q
  simp only at h1 h2
  rw [h1, h2]

theorem cat_parse_short_letter_context (option option2 : List Char) (p q : cat_program)
    (c : Char) (h : p.context = q.context) :
    (cat_parse_short_letter option p c).context =
      (cat_parse_short_letter option2 q c).context := by
  by_cases hk : c ∈ short_option_letters
  · obtain ⟨o, rfl⟩ := short_letter_of_mem c hk
    rw [cat_parse_short_letter_known, cat_parse_short_letter_known]
    simp [cat_enable, h]
  · rw [cat_parse_short_letter_unknown _ p c hk, cat_parse_short_letter_unknown _ q c hk]
    exact h

theorem cat_parse_short_letters_context (option option2 letters : List Char)
    (p q : cat_program) (h : p.context = q.context) :
    (letters.foldl (cat_parse_short_letter option) p).context =
      (letters.foldl (cat_parse_short_letter option2) q).context := by
  induction letters generalizing p q with
  | nil => exact h
  | cons c letters ih =>
    rw [List.foldl_cons, List.foldl_cons]
    exact ih _ _ (cat_parse_short_letter_context option option2 p q c h)

theorem cat_parse_long_option_context (p q : cat_program) (arg : List Char)
    (h : p.context = q.context) :
    (cat_parse_long_option p arg).context = (cat_parse_long_option q arg).context := by
  unfold cat_parse_long_option
  cases cat_option_indices.find? (fun i => decide (arg = (cat_options i).longname)) with
  | none => exact h
  | some i => simp [cat_enable, h]

/-- The context after an argument does not depend on the invalid-option
marker. -/
theorem cat_parse_argument_context (p q : cat_program) (arg : List Char)
    (h : p.context = q.context) :
    (cat_parse_argument p arg).context = (cat_parse_argument q arg).context := by
  unfold cat_parse_argument
  split
  · exact cat_parse_long_option_context p q arg h
  · split
    · simp [cat_add_file, h]
    · split
      · exact cat_parse_short_letters_context _ _ _ p q h
      · simp [cat_add_file, h]

theorem cat_parse_arguments_context (args : List (List Char)) (p q : cat_program)
    (h : p.context = q.context) :
    (args.foldl cat_parse_argument p).context = (args.foldl cat_parse_argument q).context := by
  induction args generalizing p q with
  | nil => exact h
  | cons a args ih =>
    rw [List.foldl_cons, List.foldl_cons]
    exact ih _ _ (cat_parse_argument_context p q a h)

theorem cat_parse_argument_cluster (p : cat_program) (letters : List Char)
    (h : is_short_cluster ('-' :: letters)) :
    cat_parse_argument p ('-' :: letters) = cat_parse_short_option p letters := by
  obtain ⟨h1, h2, h3⟩ := h
  unfold cat_parse_argument
  rw [if_neg h1, if_neg h2, if_pos h3]
  rfl

theorem unknown_letter_perm (letters letters2 : List Char) (hperm : letters.Perm letters2) :
    (∃ c ∈ letters, c ∉ short_option_letters) ↔
      (∃ c ∈ letters2, c ∉ short_option_letters) := by
  constructor
  · rintro ⟨c, hc, hu⟩
    exact ⟨c, hperm.mem_iff.mp hc, hu⟩
  · rintro ⟨c, hc, hu⟩
    exact ⟨c, hperm.mem_iff.mpr hc, hu⟩

/-- Two clusters with the same letters in another order leave the same context
and differ in the marker at most by the cluster text they record. -/
theorem cat_parse_short_option_perm (p : cat_program) (letters letters2 : List Char)
    (hperm : letters.Perm letters2) :
    (cat_parse_short_option p letters).context =
      (cat_parse_short_option p letters2).context ∧
    (((∀ c ∈ letters, c ∈ short_option_letters) ∧
        (cat_parse_short_option p letters).invalid_option =
          (cat_parse_short_option p letters2).invalid_option) ∨
      ((∃ c ∈ letters, c ∉ short_option_letters) ∧
        (cat_parse_short_option p letters).invalid_option = some letters ∧
        (cat_parse_short_option p letters2).invalid_option = some letters2)) := by
  constructor
  · apply cat_app_context_eq
    · funext o
      have h1 := cat_parse_short_letters_enabled letters letters p o
      have h2 := cat_parse_short_letters_enabled letters2 letters2 p o
      unfold cat_parse_short_option
      rw [h1, h2]
      have : (short_letter o ∈ letters) ↔ (short_letter o ∈ letters2) := hperm.mem_iff
      simp [this]
    · unfold cat_parse_short_option
      rw [cat_parse_short_letters_files, cat_parse_short_letters_files]
  · unfold cat_parse_short_option
    rw [cat_parse_short_letters_marker, cat_parse_short_letters_marker]
    by_cases hu : ∃ c ∈ letters, c ∉ short_option_letters
    · right
      have hu2 := (unknown_letter_perm letters letters2 hperm).mp hu
      exact ⟨hu, by rw [if_pos hu], by rw [if_pos hu2]⟩
    · left
      have hu2 : ¬ ∃ c ∈ letters2, c ∉ short_option_letters := fun h =>
        hu ((unknown_letter_perm letters letters2 hperm).mpr h)
      refine ⟨?_, by rw [if_neg hu, if_neg hu2]⟩
      intro c hc
      by_contra hk
      exact hu ⟨c, hc, hk⟩

theorem cat_run_but_err (p q : cat_program) (w : World) (hctx : p.context = q.context)
    (hinv : p.invalid_option.isSome = q.invalid_option.isSome) :
    (cat_run p w).map cat_effects_but_err = (cat_run q w).map cat_effects_but_err := by
  unfold cat_run
  cases hp : p.invalid_option with
  | none =>
    rw [hp] at hinv
    cases hq : q.invalid_option with
    | none => simp only [hctx]
    | some t => rw [hq] at hinv; simp at hinv
  | some s =>
    rw [hp] at hinv
    cases hq : q.invalid_option with
    | none => rw [hq] at hinv; simp at hinv
    | some t => rfl

/-- C12 (as amended): for every argument vector and every permutation of the
letters of one of its short clusters (the permuted token still being a short
cluster), `cat_app_context_init` yields the same context (enabled options and
source list) and records an invalid option in the same cases, and `cat_run`
writes the same standard output, opens the same paths and reads standard input
alike.  The marker itself, and so the error message, is the same when every
letter of the cluster is a short option letter; otherwise it is the same or
holds each cluster as it was typed. -/
theorem cat_cluster_letter_order (prog : List Char) (before after : List (List Char))
    (letters letters2 : List Char) (w : World) (hperm : letters.Perm letters2)
    (h1 : is_short_cluster ('-' :: letters)) (h2 : is_short_cluster ('-' :: letters2)) :
    (cat_app_context_init (prog :: (before ++ ('-' :: letters) :: after))).context =
      (cat_app_context_init (prog :: (before ++ ('-' :: letters2) :: after))).context ∧
    (cat_app_context_init (prog :: (before ++ ('-' :: letters) :: after))).invalid_option.isSome =
      (cat_app_context_init
        (prog :: (before ++ ('-' :: letters2) :: after))).invalid_option.isSome ∧
    (cat_main (prog :: (before ++ ('-' :: letters) :: after)) w).map cat_effects_but_err =
      (cat_main (prog :: (before ++ ('-' :: letters2) :: after)) w).map cat_effects_but_err ∧
    (((cat_app_context_init (prog :: (before ++ ('-' :: letters) :: after))).invalid_option =
        (cat_app_context_init
          (prog :: (before ++ ('-' :: letters2) :: after))).invalid_option ∧
      cat_main (prog :: (before ++ ('-' :: letters) :: after)) w =
        cat_main (prog :: (before ++ ('-' :: letters2) :: after)) w) ∨
     ((∃ c ∈ letters, c ∉ short_option_letters) ∧
      (cat_app_context_init (prog :: (before ++ ('-' :: letters) :: after))).invalid_option =
        some letters ∧
      (cat_app_context_init (prog :: (before ++ ('-' :: letters2) :: after))).invalid_option =
        some letters2)) := by
  obtain ⟨p, hp⟩ : ∃ p, p = before.foldl cat_parse_argument
      { context := { option_enabled := fun _ => false, files := [] },
        invalid_option := none } := ⟨_, rfl⟩
  have hinit : ∀ l, is_short_cluster ('-' :: l) →
      cat_app_context_init (prog :: (before ++ ('-' :: l) :: after)) =
        after.foldl cat_parse_argument (cat_parse_short_option p l) := by
    intro l hl
    unfold cat_app_context_init cat_parse_options
    rw [List.tail_cons, List.foldl_append, List.foldl_cons, ← hp,
      cat_parse_argument_cluster p l hl]
  obtain ⟨hctx, hmark⟩ := cat_parse_short_option_perm p letters letters2 hperm
  have hctx2 := cat_parse_arguments_context after _ _ hctx
  have hm1 := cat_parse_arguments_marker after (cat_parse_short_option p letters)
  have hm2 := cat_parse_arguments_marker after (cat_parse_short_option p letters2)
  simp only [cat_main]
  rw [hinit letters h1, hinit letters2 h2]
  have hcases : ((after.foldl cat_parse_argument (cat_parse_short_option p letters)).invalid_option =
        (after.foldl cat_parse_argument (cat_parse_short_option p letters2)).invalid_option) ∨
      ((∃ c ∈ letters, c ∉ short_option_letters) ∧
        (after.foldl cat_parse_argument (cat_parse_short_option p letters)).invalid_option =
          some letters ∧
        (after.foldl cat_parse_argument (cat_parse_short_option p letters2)).invalid_option =
          some letters2) := by
    rw [hm1, hm2]
    cases (after.filter fun arg => decide (unrecognized_option arg)).getLast? with
    | some a => exact Or.inl rfl
    | none =>
      rcases hmark with ⟨_, h⟩ | ⟨hu, ha, hb⟩
      · exact Or.inl h
      · exact Or.inr ⟨hu, ha, hb⟩
  have hsome : (after.foldl cat_parse_argument
        (cat_parse_short_option p letters)).invalid_option.isSome =
      (after.foldl cat_parse_argument
        (cat_parse_short_option p letters2)).invalid_option.isSome := by
    rcases hcases with h | ⟨_, ha, hb⟩
    · rw [h]
    · rw [ha, hb]
      rfl
  refine ⟨hctx2, hsome, cat_run_but_err _ _ w hctx2 hsome, ?_⟩
  rcases hcases with h | h
  · left
    exact ⟨h, by rw [cat_program_eq _ _ hctx2 h]⟩
  · right
    exact h

/-- C12 at the clusters `-ns` and `-sn` before the source `f`. -/
theorem cat_cluster_letter_order_witness :
    cat_main ["cat".toList, "-ns".toList, ['f']] example_world =
      cat_main ["cat".toList, "-sn".toList, ['f']] example_world := by
  have h := cat_cluster_letter_order "cat".toList [] [['f']] ['n', 's'] ['s', 'n'] example_world
    (List.Perm.swap 's' 'n' []) ⟨by decide, by decide, by decide⟩
    ⟨by decide, by decide, by decide⟩
  rcases h.2.2.2 with h1 | ⟨hu, _, _⟩
  · exact h1.2
  · exact absurd hu (by decide)

/-- C12, as stated, fails for a cluster with an unknown letter: the marker holds
the cluster as it was typed, so `-xn` and `-nx` give different error messages. -/
theorem cat_cluster_letter_order_counterexample :
    (cat_app_context_init ["cat".toList, "-xn".toList]).invalid_option = some ['x', 'n'] ∧
    (cat_app_context_init ["cat".toList, "-nx".toList]).invalid_option = some ['n', 'x'] ∧
    (cat_main ["cat".toList, "-xn".toList] example_world).map cat_effects.err =
      some (cat_print_invalid_option ['x', 'n']) ∧
    (cat_main ["cat".toList, "-nx".toList] example_world).map cat_effects.err =
      some (cat_print_invalid_option ['n', 'x']) ∧
    cat_main ["cat".toList, "-xn".toList] example_world ≠
      cat_main ["cat".toList, "-nx".toList] example_world := by
  decide

/-! ## The sources one after the other -/

/-- The loop of `cat_process_files`: the sources that can be processed are run
one after the other, each from the initial state; the others leave one
diagnostic each. -/
theorem cat_process_files_loop_eq (ctx : cat_app_context) (w : World)
    (files : List (Option (List Char))) (eff : cat_effects) :
    cat_process_files_loop ctx w files eff =
      (concat_outputs ctx
        (source_streams w eff.stdin (files.filter (source_ok w)))).map fun out =>
        { out := eff.out ++ out,
          err := eff.err ++ (files.filterMap (source_diagnostic w)).flatten,
          opened := eff.opened ++ files.filterMap id,
          stdin := if none ∈ files then [] else eff.stdin } := by
  induction files generalizing eff with
  | nil => simp [cat_process_files_loop, source_streams, concat_outputs]
  | cons entry files ih =>
    cases entry with
    | none =>
      simp only [cat_process_files_loop, cat_process_stdin, source_ok, List.filter_cons_of_pos,
        source_streams, concat_outputs, source_diagnostic, List.filterMap_cons_none]
      cases cat_process_file ctx eff.stdin with
      | none => rfl
      | some out =>
        simp only [Option.map_some', Option.some_bind, ih]
        cases concat_outputs ctx (source_streams w [] (files.filter (source_ok w))) with
        | none => rfl
        | some rest => simp
    | some path =>
      cases hopen : w.fopen path with
      | error reason =>
        have hok : source_ok w (some path) = false := by simp [source_ok, hopen]
        have hd : source_diagnostic w (some path) = some (cat_source_error path reason) := by
          simp [source_diagnostic, hopen]
        simp only [cat_process_files_loop, hopen, ih, List.filter_cons_of_neg,
          hok, Bool.false_eq_true, not_false_eq_true, List.filterMap_cons_some hd]
        cases concat_outputs ctx (source_streams w eff.stdin (files.filter (source_ok w))) with
        | none => rfl
        | some rest => simp
      | ok fp =>
        by_cases hdir : cat_is_directory w path = true
        · have hok : source_ok w (some path) = false := by simp [source_ok, hopen, hdir]
          have hd : source_diagnostic w (some path) =
              some (cat_source_error path strerror_EISDIR) := by
            simp [source_diagnostic, hopen, hdir]
          simp only [cat_process_files_loop, hopen, hdir, if_true, ih, List.filter_cons_of_neg,
            hok, Bool.false_eq_true, not_false_eq_true, List.filterMap_cons_some hd]
          cases concat_outputs ctx
              (source_streams w eff.stdin (files.filter (source_ok w))) with
          | none => rfl
          | some rest => simp
        · have hok : source_ok w (some path) = true := by simp [source_ok, hopen, hdir]
          have hd : source_diagnostic w (some path) = none := by
            simp [source_diagnostic, hopen, hdir]
          have hc : file_content w path = fp := by simp [file_content, hopen]
          simp only [cat_process_files_loop, hopen, hdir, if_false, List.filter_cons_of_pos hok,
            source_streams, concat_outputs, hc, List.filterMap_cons_none hd, Bool.false_eq_true]
          cases cat_process_file ctx fp with
          | none => rfl
          | some out =>
            simp only [Option.some_bind, ih]
            cases concat_outputs ctx
                (source_streams w eff.stdin (files.filter (source_ok w))) with
            | none => rfl
            | some rest => simp

theorem concat_outputs_total (ctx : cat_app_context) (fps : List (List Char))
    (h : ∀ fp ∈ fps, NUL ∉ fp ∧ fp.length < INT_MAX) :
    ∃ out, concat_outputs ctx fps = some out := by
  induction fps with
  | nil => exact ⟨[], rfl⟩
  | cons fp fps ih =>
    obtain ⟨h1, h2⟩ := h fp (List.mem_cons_self _ _)
    obtain ⟨out, hout⟩ := cat_process_file_total ctx fp h1 h2
    obtain ⟨rest, hrest⟩ := ih (fun f hf => h f (List.mem_cons_of_mem _ hf))
    exact ⟨out ++ rest, by simp [concat_outputs, hout, hrest]⟩

theorem filter_source_ok_of_all (w : World) (files : List (Option (List Char)))
    (h : ∀ entry ∈ files, source_ok w entry = true) : files.filter (source_ok w) = files :=
  List.filter_eq_self.mpr h

/-! ## C13: the formatting state is per source -/

/-- C13: for every option set and every list of sources that can all be
processed, the standard output of `cat_process_files` is the concatenation in
list order of the outputs of `cat_process_file` run on each source alone from
the initial state (an empty list stands for standard input; a `-` entry is
read as standard input is when it is reached); the output exists when the
texts have no NUL character and fewer than `INT_MAX` characters. -/
theorem cat_process_files_per_source (ctx : cat_app_context) (w : World)
    (hfiles : ∀ entry ∈ ctx.files, source_ok w entry = true) :
    (cat_process_files ctx w (cat_effects_start w)).map cat_effects.out =
      concat_outputs ctx
        (match ctx.files with
         | [] => [w.stdin]
         | _ :: _ => source_streams w w.stdin ctx.files) ∧
    ((∀ fp ∈ (match ctx.files with
              | [] => [w.stdin]
              | _ :: _ => source_streams w w.stdin ctx.files),
        NUL ∉ fp ∧ fp.length < INT_MAX) →
      ∃ out, (cat_process_files ctx w (cat_effects_start w)).map cat_effects.out =
        some out) := by
  have heq : (cat_process_files ctx w (cat_effects_start w)).map cat_effects.out =
      concat_outputs ctx
        (match ctx.files with
         | [] => [w.stdin]
         | _ :: _ => source_streams w w.stdin ctx.files) := by
    unfold cat_process_files
    cases hf : ctx.files with
    | nil =>
      simp only [List.length_nil, if_true, cat_process_stdin, cat_effects_start,
        cat_process_files_loop, concat_outputs]
      cases cat_process_file ctx w.stdin with
      | none => rfl
      | some out => simp
    | cons entry files =>
      simp only [List.length_cons, Nat.add_one_ne_zero, if_false, Option.some_bind]
      rw [cat_process_files_loop_eq, filter_source_ok_of_all w _ (hf ▸ hfiles)]
      have hst : (cat_effects_start w).stdin = w.stdin := rfl
      rw [hst]
      cases concat_outputs ctx (source_streams w w.stdin (entry :: files)) with
      | none => rfl
      | some out => simp [cat_effects_start]
  refine ⟨heq, fun h => ?_⟩
  obtain ⟨out, hout⟩ := concat_outputs_total ctx _ h
  exact ⟨out, heq.trans hout⟩

/-- C13 with number and squeeze-blank on the files `p` (`"a\n\n"`) and `q`
(`"\nb\n"`): the numbers start again at 1 in `q`, and its first line, a blank
line after the blank line that ends `p`, is not suppressed. -/
theorem cat_process_files_per_source_witness :
    (cat_process_files (cat_context true false true [some ['p'], some ['q']])
        example_world_two (cat_effects_start example_world_two)).map cat_effects.out =
      concat_outputs (cat_context true false true [some ['p'], some ['q']])
        [['a', '\n', '\n'], ['\n', 'b', '\n']] ∧
    (cat_process_files (cat_context true false true [some ['p'], some ['q']])
        example_world_two (cat_effects_start example_world_two)).map cat_effects.out =
      some "     1  a\n     2  \n     1  \n     2  b\n".toList :=
  ⟨(cat_process_files_per_source (cat_context true false true [some ['p'], some ['q']])
      example_world_two
      (by
        intro entry h
        simp only [cat_context, List.mem_cons, List.mem_singleton, List.not_mem_nil,
          or_false] at h
        rcases h with rfl | rfl <;> decide)).1,
   by decide⟩

/-! ## C14: errors on a source are not fatal -/

/-- C14: for every option set and every non-empty source list, the effects of
`cat_process_files` are these: standard output is the concatenation in order
of the outputs of `cat_process_file` on the sources that can be processed
(opened and not a directory); standard error holds one diagnostic, in order,
for each source that cannot; every path of the list is opened in order. -/
theorem cat_process_files_errors (ctx : cat_app_context) (w : World)
    (hne : ctx.files ≠ []) :
    cat_process_files ctx w (cat_effects_start w) =
      (concat_outputs ctx
        (source_streams w w.stdin (ctx.files.filter (source_ok w)))).map fun out =>
        { out := out,
          err := (ctx.files.filterMap (source_diagnostic w)).flatten,
          opened := ctx.files.filterMap id,
          stdin := if none ∈ ctx.files then [] else w.stdin } := by
  unfold cat_process_files
  have hlen : ctx.files.length ≠ 0 := fun h => hne (List.length_eq_zero.mp h)
  simp only [hlen, if_false, Option.some_bind]
  rw [cat_process_files_loop_eq]
  simp [cat_effects_start]

/-- C14 on the sources `g` (missing), `d` (a directory), `f` and `-`: two
diagnostics, and the file and standard input on standard output. -/
theorem cat_process_files_errors_witness :
    cat_process_files (cat_context false false false [some ['g'], some ['d'], some ['f'], none])
        example_world (cat_effects_start example_world) =
      some { out := "F\nx\n".toList,
             err := "cat: g: No such file or directory\ncat: d: Is a directory\n".toList,
             opened := [['g'], ['d'], ['f']],
             stdin := [] } :=
  (cat_process_files_errors
    (cat_context false false false [some ['g'], some ['d'], some ['f'], none])
    example_world (by decide)).trans (by decide)

/-! ## C15: help and version -/

/-- The usage text: the program name, the description, then for each option its
short form, its long form and its description. -/
theorem cat_print_help_text :
    cat_print_help =
      ("cat\n\nPrint and concatenate files.\n" ++
       "  -h      --help                    Print this help and exit\n" ++
       "  -V      --version                 Print version information and exit\n" ++
       "  -n      --number                  Number all output lines\n" ++
       "  -b      --number-nonblank         Number nonempty output lines, overrides -n\n" ++
       "  -v      --show-nonprinting        Use ^ and M- notation, except for LFD and TAB (not implemented yet)\n" ++
       "  -s      --squeeze-blank           Suppress repeated empty output lines\n").toList := by
  decide

/-- The version text: the program name and the version string. -/
theorem cat_print_version_text : cat_print_version = "cat 0.0.3\n".toList := by
  decide

/-- C15: when no invalid option is recorded, for every setting of the other
options, every source list and every world: with help enabled the run writes
the usage text (the program name, the description, then the short form, the
long form and the description of each option) to standard output and does
nothing else (nothing on standard error, no path opened, standard input not
read); with help disabled and version enabled it writes the program name and
the version string, `"cat 0.0.3\n"`, and does nothing else. -/
theorem cat_run_help_version (p : cat_program) (w : World)
    (hinv : p.invalid_option = none) :
    (p.context.option_enabled CAT_OPTION_HELP = true →
      cat_run p w =
        some { out :=
                 ("cat\n\nPrint and concatenate files.\n" ++
                  "  -h      --help                    Print this help and exit\n" ++
                  "  -V      --version                 Print version information and exit\n" ++
                  "  -n      --number                  Number all output lines\n" ++
                  "  -b      --number-nonblank         Number nonempty output lines, overrides -n\n" ++
                  "  -v      --show-nonprinting        Use ^ and M- notation, except for LFD and TAB (not implemented yet)\n" ++
                  "  -s      --squeeze-blank           Suppress repeated empty output lines\n").toList,
               err := [], opened := [], stdin := w.stdin }) ∧
    (p.context.option_enabled CAT_OPTION_HELP = false →
      p.context.option_enabled CAT_OPTION_VERSION = true →
      cat_run p w =
        some { out := "cat 0.0.3\n".toList, err := [], opened := [], stdin := w.stdin }) := by
  constructor
  · intro hh
    rw [← cat_print_help_text]
    simp [cat_run, hinv, hh, cat_effects_start]
  · intro hh hv
    rw [← cat_print_version_text]
    simp [cat_run, hinv, hh, hv, cat_effects_start]

/-- C15 at the arguments `-n`, `f`, `--help`, `-V`, then at `-n`, `f`, `-V`. -/
theorem cat_run_help_version_witness :
    cat_main ["cat".toList, "-n".toList, ['f'], "--help".toList, "-V".toList] example_world =
      some { out :=
               ("cat\n\nPrint and concatenate files.\n" ++
                "  -h      --help                    Print this help and exit\n" ++
                "  -V      --version                 Print version information and exit\n" ++
                "  -n      --number                  Number all output lines\n" ++
                "  -b      --number-nonblank         Number nonempty output lines, overrides -n\n" ++
                "  -v      --show-nonprinting        Use ^ and M- notation, except for LFD and TAB (not implemented yet)\n" ++
                "  -s      --squeeze-blank           Suppress repeated empty output lines\n").toList,
             err := [], opened := [], stdin := ['x', '\n'] } ∧
    cat_main ["cat".toList, "-n".toList, ['f'], "-V".toList] example_world =
      some { out := "cat 0.0.3\n".toList, err := [], opened := [],
             stdin := ['x', '\n'] } :=
  ⟨(cat_run_help_version
      (cat_app_context_init
        ["cat".toList, "-n".toList, ['f'], "--help".toList, "-V".toList])
      example_world (by decide)).1 (by decide),
   (cat_run_help_version
      (cat_app_context_init ["cat".toList, "-n".toList, ['f'], "-V".toList])
      example_world (by decide)).2 (by decide) (by decide)⟩

/-! ## The writes of the formatter -/

theorem cat_emit_numbered_writes (format : cat_format) (st : cat_line_state) (blr : Nat)
    (str : List Char) :
    cat_emit_numbered format st blr str =
      (cat_emit_numbered_write format st blr str).map fun r => (r.1, cat_write_render r.2) := by
  unfold cat_emit_numbered cat_emit_numbered_write
  cases st.line_continued <;> cases format <;> cases str.getLast? with
  | none => simp [fprintf_format, cat_format_write]
  | some c =>
    by_cases hc : c = '\n'
    · cases hi : int_incr st.linenum <;>
        simp [fprintf_format, cat_format_write, hc, hi, cat_write_render]
    · simp [fprintf_format, cat_format_write, hc, cat_write_render]

/-- The text of an iteration is the text of the call it makes. -/
theorem cat_process_chunk_writes (ctx : cat_app_context) (format : cat_format)
    (st : cat_line_state) (buffer : List Char) :
    cat_process_chunk ctx format st buffer =
      (cat_process_chunk_write ctx format st buffer).map fun r =>
        (r.1, cat_writes_render r.2.toList) := by
  simp only [cat_process_chunk, cat_process_chunk_write]
  cases cat_blank_update ctx st (c_str buffer).length with
  | none => rfl
  | some blr =>
    simp only [Option.some_bind, cat_emit_numbered_writes]
    have hemit : ∀ x : Option (cat_line_state × cat_write),
        x.map (fun r => (r.1, cat_write_render r.2)) =
          (x.map fun r => (r.1, some r.2)).map fun r =>
            (r.1, cat_writes_render r.2.toList) := by
      intro x
      cases x <;> simp [cat_writes_render]
    split
    · split
      · exact hemit _
      · split <;> simp [cat_writes_render, cat_write_render]
    · split
      · split
        · exact hemit _
        · simp [cat_writes_render]
      · split <;> simp [cat_writes_render, cat_write_render]

theorem cat_writes_render_append (ws ws2 : List cat_write) :
    cat_writes_render (ws ++ ws2) = cat_writes_render ws ++ cat_writes_render ws2 := by
  simp [cat_writes_render]

/-- The text of the loop is the text of the calls it makes. -/
theorem cat_process_loop_writes (ctx : cat_app_context) (format : cat_format)
    (fuel : Nat) (st : cat_line_state) (fp : List Char) :
    cat_process_loop ctx format fuel st fp =
      (cat_process_loop_write ctx format fuel st fp).map cat_writes_render := by
  induction fuel generalizing st fp with
  | zero => rfl
  | succ fuel ih =>
    simp only [cat_process_loop, cat_process_loop_write]
    cases fgets CAT_BUFSIZE fp with
    | none => rfl
    | some r =>
      simp only [cat_process_chunk_writes]
      cases cat_process_chunk_write ctx format st r.1 with
      | none => rfl
      | some r2 =>
        simp only [Option.map_some', Option.some_bind, ih]
        cases cat_process_loop_write ctx format fuel r2.1 r.2 with
        | none => rfl
        | some ws => simp [cat_writes_render_append]

/-- The output of `cat_process_file` is the text of the calls it makes. -/
theorem cat_process_file_writes (ctx : cat_app_context) (fp : List Char) :
    cat_process_file ctx fp = (cat_process_writes ctx fp).map cat_writes_render :=
  cat_process_loop_writes ctx _ _ _ fp

theorem cat_process_writes_total (ctx : cat_app_context) (fp : List Char) (hnul : NUL ∉ fp)
    (hlen : fp.length < INT_MAX) : ∃ ws, cat_process_writes ctx fp = some ws := by
  obtain ⟨out, hout⟩ := cat_process_file_total ctx fp hnul hlen
  rw [cat_process_file_writes] at hout
  cases h : cat_process_writes ctx fp with
  | none => rw [h] at hout; simp at hout
  | some ws => exact ⟨ws, rfl⟩

theorem cat_emit_numbered_write_spec (format : cat_format) (st st2 : cat_line_state)
    (blr : Nat) (str : List Char) (wr : cat_write)
    (h : cat_emit_numbered_write format st blr str = some (st2, wr)) :
    st2.line_continued = !ends_in_newline str ∧ st2.blank_line_repeated = blr ∧
    cat_write_text wr = str ∧
    ((wr = cat_write.plain str ∧ st.line_continued = true) ∨
      (wr = cat_write.numbered st.linenum str ∧ st.line_continued = false)) := by
  unfold cat_emit_numbered_write at h
  have hwr : ∀ x, (if st.line_continued = true then some (cat_write.plain str)
      else cat_format_write format st.linenum str) = some x →
      cat_write_text x = str ∧
      ((x = cat_write.plain str ∧ st.line_continued = true) ∨
        (x = cat_write.numbered st.linenum str ∧ st.line_continued = false)) := by
    intro x hx
    cases hc : st.line_continued with
    | true =>
      rw [hc] at hx
      simp only [if_true, Option.some.injEq] at hx
      subst hx
      exact ⟨rfl, Or.inl ⟨rfl, rfl⟩⟩
    | false =>
      rw [hc] at hx
      cases format with
      | plain => simp [cat_format_write] at hx
      | numbered =>
        simp only [Bool.false_eq_true, if_false, cat_format_write, Option.some.injEq] at hx
        subst hx
        exact ⟨rfl, Or.inr ⟨rfl, rfl⟩⟩
  generalize hout : (if st.line_continued = true then some (cat_write.plain str)
      else cat_format_write format st.linenum str) = first at h hwr
  cases first with
  | none => simp at h
  | some x =>
    simp only [Option.some_bind] at h
    obtain ⟨ht, hx⟩ := hwr x rfl
    cases hl : str.getLast? with
    | none => rw [hl] at h; simp at h
    | some c =>
      rw [hl] at h
      by_cases hc : c = '\n'
      · simp only [hc, if_true] at h
        cases hi : int_incr st.linenum with
        | none => rw [hi] at h; simp at h
        | some l =>
          rw [hi] at h
          simp only [Option.map_some', Option.some.injEq, Prod.mk.injEq] at h
          obtain ⟨h1, h2⟩ := h
          subst h1 h2
          exact ⟨by simp [ends_in_newline, hl, hc], rfl, ht, hx⟩
      · simp only [hc, if_false, Option.some.injEq, Prod.mk.injEq] at h
        obtain ⟨h1, h2⟩ := h
        subst h1 h2
        exact ⟨by simp [ends_in_newline, hl, hc], rfl, ht, hx⟩

theorem at_line_start_append (out str : List Char) (h : ends_in_newline str = true) :
    at_line_start (out ++ str) := by
  right
  have hl : str.getLast? = some '\n' := by simpa [ends_in_newline] using h
  have hne : str ≠ [] := by
    intro e
    rw [e] at hl
    simp at hl
  rw [List.getLast?_append_of_ne_nil _ hne, hl]

theorem cat_write_render_ends (wr : cat_write)
    (h : ends_in_newline (cat_write_text wr) = true) :
    ends_in_newline (cat_write_render wr) = true := by
  have hl : (cat_write_text wr).getLast? = some '\n' := by simpa [ends_in_newline] using h
  cases wr with
  | plain str => exact h
  | numbered k str =>
    have hne : str ≠ [] := by
      intro e
      simp [cat_write_text, e] at hl
    simp only [cat_write_text] at hl
    show ends_in_newline (printf_star_d CAT_LINENO_ADJUST k ++ [' ', ' '] ++ str) = true
    simp only [ends_in_newline]
    rw [List.getLast?_append_of_ne_nil _ hne, hl]
    rfl

/-- What an iteration of the loop does on a chunk without NUL: the call it
makes, if any, writes the chunk; a number field is written only when the line
is not continued; with a numbering option, after a chunk that is not the last
of the stream, the line is not continued only where the output is at the start
of a line. -/
theorem cat_process_chunk_write_spec (ctx : cat_app_context) (format : cat_format)
    (st st2 : cat_line_state) (chunk : List Char) (wr : Option cat_write)
    (hnul : NUL ∉ chunk)
    (h : cat_process_chunk_write ctx format st chunk = some (st2, wr)) :
    (∀ x, wr = some x → cat_write_text x = chunk) ∧
    (∀ k str, wr = some (cat_write.numbered k str) → st.line_continued = false) ∧
    ((ctx.option_enabled CAT_OPTION_PRINT_LINENUM = true ∨
        ctx.option_enabled CAT_OPTION_PRINT_LINENUM_NONBLANK = true) →
      (ends_in_newline chunk = true ∨ chunk.length = 1023) →
      ∀ out, (st.line_continued = false → at_line_start out) →
        st2.line_continued = false → at_line_start (out ++ cat_writes_render wr.toList)) := by
  simp only [cat_process_chunk_write, c_str_of_not_mem hnul] at h
  cases hblank : cat_blank_update ctx st chunk.length with
  | none => rw [hblank] at h; simp at h
  | some blr =>
    rw [hblank] at h
    simp only [Option.some_bind] at h
    have hemit : ∀ st2 wr,
        (cat_emit_numbered_write format st blr chunk).map (fun r => (r.1, some r.2)) =
          some (st2, wr) →
        (∀ x, wr = some x → cat_write_text x = chunk) ∧
        (∀ k str, wr = some (cat_write.numbered k str) → st.line_continued = false) ∧
        (∀ out, st2.line_continued = false →
          at_line_start (out ++ cat_writes_render wr.toList)) := by
      intro st2 wr he
      cases hr : cat_emit_numbered_write format st blr chunk with
      | none => rw [hr] at he; simp at he
      | some r =>
        rw [hr] at he
        simp only [Option.map_some', Option.some.injEq, Prod.mk.injEq] at he
        obtain ⟨h1, h2⟩ := he
        subst h1 h2
        obtain ⟨hc, _, ht, hx⟩ := cat_emit_numbered_write_spec format st r.1 blr chunk r.2 hr
        refine ⟨?_, ?_, ?_⟩
        · intro x hx2
          rw [← Option.some.inj hx2]
          exact ht
        · intro k str hk
          rcases hx with ⟨h1, _⟩ | ⟨_, h2⟩
          · rw [h1] at hk
            simp at hk
          · exact h2
        · intro out hlc
          rw [hc] at hlc
          have hend : ends_in_newline chunk = true := by simpa using hlc
          have := cat_write_render_ends r.2 (ht ▸ hend)
          simpa [cat_writes_render] using at_line_start_append out _ this
    have hblankwrite : ∀ st2 wr,
        (some ({ st with blank_line_repeated := blr },
          if blr ≤ 1 then some (cat_write.plain chunk) else none) :
            Option (cat_line_state × Option cat_write)) = some (st2, wr) →
        (∀ x, wr = some x → cat_write_text x = chunk) ∧
        (∀ k str, wr = some (cat_write.numbered k str) → st.line_continued = false) ∧
        st2.line_continued = st.line_continued ∧
        (wr = some (cat_write.plain chunk) ∨ wr = none) := by
      intro st2 wr he
      simp only [Option.some.injEq, Prod.mk.injEq] at he
      obtain ⟨h1, h2⟩ := he
      subst h1 h2
      refine ⟨?_, ?_, rfl, ?_⟩
      · intro x hx
        split at hx
        · rw [← Option.some.inj hx]
          rfl
        · simp at hx
      · intro k str hk
        split at hk <;> simp at hk
      · split
        · exact Or.inl rfl
        · exact Or.inr rfl
    by_cases hb : ctx.option_enabled CAT_OPTION_PRINT_LINENUM_NONBLANK = true
    · simp only [hb, if_true] at h
      by_cases hL : chunk.length > 1
      · simp only [hL, if_true] at h
        obtain ⟨h1, h2, h3⟩ := hemit st2 wr h
        exact ⟨h1, h2, fun _ _ out _ hlc => h3 out hlc⟩
      · simp only [hL, if_false] at h
        obtain ⟨h1, h2, h3, h4⟩ := hblankwrite st2 wr h
        refine ⟨h1, h2, ?_⟩
        intro _ hfull out hinv hlc
        rcases h4 with h4 | h4
        · have hend : ends_in_newline chunk = true := by
            rcases hfull with hf | hf
            · exact hf
            · omega
          rw [h4]
          simpa [cat_writes_render, cat_write_render] using at_line_start_append out _ hend
        · rw [h4]
          simpa [cat_writes_render] using hinv (h3 ▸ hlc)
    · simp only [hb, Bool.false_eq_true, if_false] at h
      by_cases hn : ctx.option_enabled CAT_OPTION_PRINT_LINENUM = true
      · simp only [hn, if_true] at h
        by_cases hblr : blr ≤ 1
        · simp only [hblr, if_true] at h
          obtain ⟨h1, h2, h3⟩ := hemit st2 wr h
          exact ⟨h1, h2, fun _ _ out _ hlc => h3 out hlc⟩
        · simp only [hblr, if_false, Option.some.injEq, Prod.mk.injEq] at h
          obtain ⟨h1, h2⟩ := h
          subst h1 h2
          refine ⟨by simp, by simp, ?_⟩
          intro _ _ out hinv hlc
          simpa [cat_writes_render] using hinv hlc
      · simp only [hn, Bool.false_eq_true, if_false] at h
        obtain ⟨h1, h2, _, _⟩ := hblankwrite st2 wr h
        refine ⟨h1, h2, ?_⟩
        intro hmode
        rcases hmode with hm | hm
        · exact absurd hm hn
        · exact absurd hm hb

theorem cat_process_loop_write_nil (ctx : cat_app_context) (format : cat_format)
    (fuel : Nat) (st : cat_line_state) (ws : List cat_write)
    (h : cat_process_loop_write ctx format fuel st [] = some ws) : ws = [] := by
  cases fuel with
  | zero => simp [cat_process_loop_write] at h
  | succ fuel =>
    simp only [cat_process_loop_write, fgets, Option.some.injEq] at h
    exact h.symm

/-- One iteration of the loop on a stream that is not at its end: the chunk
read, the call made and the calls of the rest of the loop. -/
theorem cat_process_loop_write_cons (ctx : cat_app_context) (format : cat_format)
    (fuel : Nat) (st : cat_line_state) (c : Char) (fp : List Char) (ws : List cat_write)
    (h : cat_process_loop_write ctx format (fuel + 1) st (c :: fp) = some ws) :
    ∃ st2 wr ws2,
      cat_process_chunk_write ctx format st (fgets_read 1023 (c :: fp)).1 = some (st2, wr) ∧
      cat_process_loop_write ctx format fuel st2 (fgets_read 1023 (c :: fp)).2 = some ws2 ∧
      ws = wr.toList ++ ws2 := by
  rw [cat_process_loop_write, fgets_cons] at h
  simp only at h
  cases hchunk : cat_process_chunk_write ctx format st (fgets_read 1023 (c :: fp)).1 with
  | none => rw [hchunk] at h; simp at h
  | some r =>
    rw [hchunk] at h
    simp only [Option.some_bind] at h
    cases hrest : cat_process_loop_write ctx format fuel r.1 (fgets_read 1023 (c :: fp)).2 with
    | none => rw [hrest] at h; simp at h
    | some ws2 =>
      rw [hrest] at h
      simp only [Option.map_some', Option.some.injEq] at h
      exact ⟨r.1, r.2, ws2, rfl, hrest, h.symm⟩

/-- With a numbering option, every number field is written where the output
is at the start of a line. -/
theorem cat_process_loop_write_line_start (ctx : cat_app_context) (format : cat_format)
    (hmode : ctx.option_enabled CAT_OPTION_PRINT_LINENUM = true ∨
      ctx.option_enabled CAT_OPTION_PRINT_LINENUM_NONBLANK = true)
    (fuel : Nat) (st : cat_line_state) (fp out : List Char) (ws : List cat_write)
    (hnul : NUL ∉ fp) (hinv : st.line_continued = false → at_line_start out)
    (h : cat_process_loop_write ctx format fuel st fp = some ws) :
    ∀ before k str after, ws = before ++ cat_write.numbered k str :: after →
      at_line_start (out ++ cat_writes_render before) := by
  induction fuel generalizing st fp out ws with
  | zero => simp [cat_process_loop_write] at h
  | succ fuel ih =>
    cases fp with
    | nil =>
      have := cat_process_loop_write_nil ctx format _ st ws h
      subst this
      intro before k str after hsplit
      simp at hsplit
    | cons c fp =>
      obtain ⟨st2, wr, ws2, hchunk, hrest, hws⟩ :=
        cat_process_loop_write_cons ctx format fuel st c fp ws h
      obtain ⟨_, h2, h3⟩ := cat_process_chunk_write_spec ctx format st st2 _ wr
        (fgets_read_not_mem_fst hnul) hchunk
      have hnul2 : NUL ∉ (fgets_read 1023 (c :: fp)).2 := fgets_read_not_mem_snd hnul
      have hfull := fgets_read_complete 1023 (c :: fp)
      intro before k str after hsplit
      have hmore : ws2 ≠ [] → ends_in_newline (fgets_read 1023 (c :: fp)).1 = true ∨
          (fgets_read 1023 (c :: fp)).1.length = 1023 := by
        intro hne
        rcases hfull with hf | hf | hf
        · exact Or.inl hf
        · exact Or.inr hf
        · rw [hf] at hrest
          exact absurd (cat_process_loop_write_nil ctx format _ st2 ws2 hrest) hne
      cases wr with
      | none =>
        simp only [Option.toList, List.nil_append] at hws
        subst hws
        have hne : ws ≠ [] := by
          rw [hsplit]
          simp
        have hinv2 := h3 hmode (hmore hne) out hinv
        simp only [Option.toList, cat_writes_render, List.map_nil, List.flatten_nil,
          List.append_nil] at hinv2
        exact ih st2 _ out ws hnul2 hinv2 hrest before k str after hsplit
      | some x =>
        simp only [Option.toList, List.singleton_append] at hws
        cases before with
        | nil =>
          rw [hws] at hsplit
          simp only [List.nil_append, List.cons.injEq] at hsplit
          have hlc := h2 k str (by rw [hsplit.1])
          simpa [cat_writes_render] using hinv hlc
        | cons y before =>
          rw [hws] at hsplit
          simp only [List.cons_append, List.cons.injEq] at hsplit
          obtain ⟨hxy, hsplit2⟩ := hsplit
          have hne : ws2 ≠ [] := by
            rw [hsplit2]
            simp
          have hinv2 := h3 hmode (hmore hne) out hinv
          have := ih st2 _ (out ++ cat_writes_render [x]) ws2 hnul2
            (by simpa [Option.toList] using hinv2) hrest before k str after hsplit2
          rw [← hxy]
          simpa [cat_writes_render, List.append_assoc] using this

/-- Without a numbering option no number field is written. -/
theorem cat_process_loop_write_plain (ctx : cat_app_context) (format : cat_format)
    (hn : ctx.option_enabled CAT_OPTION_PRINT_LINENUM = false)
    (hb : ctx.option_enabled CAT_OPTION_PRINT_LINENUM_NONBLANK = false)
    (fuel : Nat) (st : cat_line_state) (fp : List Char) (ws : List cat_write)
    (h : cat_process_loop_write ctx format fuel st fp = some ws) :
    ∀ k str, cat_write.numbered k str ∉ ws := by
  induction fuel generalizing st fp ws with
  | zero => simp [cat_process_loop_write] at h
  | succ fuel ih =>
    cases fp with
    | nil =>
      have := cat_process_loop_write_nil ctx format _ st ws h
      subst this
      simp
    | cons c fp =>
      obtain ⟨st2, wr, ws2, hchunk, hrest, hws⟩ :=
        cat_process_loop_write_cons ctx format fuel st c fp ws h
      intro k str hmem
      rw [hws] at hmem
      rcases List.mem_append.mp hmem with hm | hm
      · simp only [cat_process_chunk_write, hn, hb, Bool.false_eq_true, if_false] at hchunk
        cases hblank : cat_blank_update ctx st (c_str (fgets_read 1023 (c :: fp)).1).length with
        | none => rw [hblank] at hchunk; simp at hchunk
        | some blr =>
          rw [hblank] at hchunk
          simp only [Option.some_bind, Option.some.injEq, Prod.mk.injEq] at hchunk
          rw [← hchunk.2] at hm
          split at hm <;> simp [Option.toList] at hm
      · exact ih st2 _ ws2 hrest k str hm

/-! ## C17: no line is numbered in its middle -/

/-- C17: for every option set and every input without NUL character, each call
of `cat_process_file` that writes a number field comes where the output written
before it is empty or ends with a newline; the output is the text of the calls,
and the calls exist when the input has fewer than `INT_MAX` characters. -/
theorem cat_number_fields_at_line_start (ctx : cat_app_context) (input : List Char)
    (hnul : NUL ∉ input) :
    (∀ ws, cat_process_writes ctx input = some ws →
      ∀ before k str after, ws = before ++ cat_write.numbered k str :: after →
        cat_writes_render before = [] ∨
          (cat_writes_render before).getLast? = some '\n') ∧
    cat_process_file ctx input = (cat_process_writes ctx input).map cat_writes_render ∧
    (input.length < INT_MAX → ∃ ws, cat_process_writes ctx input = some ws) := by
  refine ⟨?_, cat_process_file_writes ctx input,
    fun hlen => cat_process_writes_total ctx input hnul hlen⟩
  intro ws hws before k str after hsplit
  by_cases hmode : ctx.option_enabled CAT_OPTION_PRINT_LINENUM = true ∨
      ctx.option_enabled CAT_OPTION_PRINT_LINENUM_NONBLANK = true
  · have := cat_process_loop_write_line_start ctx _ hmode _ _ input [] ws hnul
      (fun _ => Or.inl rfl) hws before k str after hsplit
    simpa [at_line_start] using this
  · have hn : ctx.option_enabled CAT_OPTION_PRINT_LINENUM = false := by
      cases h : ctx.option_enabled CAT_OPTION_PRINT_LINENUM
      · rfl
      · exact absurd (Or.inl h) hmode
    have hb : ctx.option_enabled CAT_OPTION_PRINT_LINENUM_NONBLANK = false := by
      cases h : ctx.option_enabled CAT_OPTION_PRINT_LINENUM_NONBLANK
      · rfl
      · exact absurd (Or.inr h) hmode
    have := cat_process_loop_write_plain ctx _ hn hb _ _ input ws hws k str
    rw [hsplit] at this
    simp at this

/-- C17 on a line of 1023 letters with its newline, then `"b\n"`, with number
and with number-nonblank. -/
theorem cat_number_fields_at_line_start_witness :
    cat_process_writes (cat_context true false false [])
        (List.replicate 1023 'a' ++ ['\n', 'b', '\n']) =
      some [cat_write.numbered 1 (List.replicate 1023 'a'), cat_write.plain ['\n'],
            cat_write.numbered 2 ['b', '\n']] ∧
    (cat_writes_render
        [cat_write.numbered 1 (List.replicate 1023 'a'), cat_write.plain ['\n']]).getLast? =
      some '\n' ∧
    cat_process_writes (cat_context false true false [])
        (List.replicate 1023 'a' ++ ['\n', 'b', '\n']) =
      some [cat_write.numbered 1 (List.replicate 1023 'a'), cat_write.plain ['\n'],
            cat_write.plain ['b', '\n']] := by
  have h1 : cat_process_writes (cat_context true false false [])
      (List.replicate 1023 'a' ++ ['\n', 'b', '\n']) =
      some [cat_write.numbered 1 (List.replicate 1023 'a'), cat_write.plain ['\n'],
            cat_write.numbered 2 ['b', '\n']] := by decide
  refine ⟨h1, ?_, by decide⟩
  have h := (cat_number_fields_at_line_start (cat_context true false false [])
    (List.replicate 1023 'a' ++ ['\n', 'b', '\n']) (by decide)).1 _ h1
    [cat_write.numbered 1 (List.replicate 1023 'a'), cat_write.plain ['\n']] 2 ['b', '\n'] []
    rfl
  rcases h with h | h
  · exact absurd h (by decide)
  · exact h

/-! ## C20: numbering alone keeps the input -/

theorem cat_process_chunk_write_unsqueezed (ctx : cat_app_context) (format : cat_format)
    (hs : ctx.option_enabled CAT_OPTION_SQUEEZE_BLANK = false)
    (st st2 : cat_line_state) (chunk : List Char) (wr : Option cat_write)
    (hnul : NUL ∉ chunk) (hblr : st.blank_line_repeated ≤ 1)
    (h : cat_process_chunk_write ctx format st chunk = some (st2, wr)) :
    st2.blank_line_repeated = st.blank_line_repeated ∧
    ∃ x, wr = some x ∧ cat_write_text x = chunk := by
  simp only [cat_process_chunk_write, c_str_of_not_mem hnul, cat_blank_update, hs,
    Bool.false_eq_true, if_false, Option.some_bind, hblr, if_true] at h
  have hemit : (cat_emit_numbered_write format st st.blank_line_repeated chunk).map
      (fun r => (r.1, some r.2)) = some (st2, wr) →
      st2.blank_line_repeated = st.blank_line_repeated ∧
      ∃ x, wr = some x ∧ cat_write_text x = chunk := by
    intro he
    cases hr : cat_emit_numbered_write format st st.blank_line_repeated chunk with
    | none => rw [hr] at he; simp at he
    | some r =>
      rw [hr] at he
      simp only [Option.map_some', Option.some.injEq, Prod.mk.injEq] at he
      obtain ⟨h1, h2⟩ := he
      subst h1 h2
      obtain ⟨_, hb, ht, _⟩ := cat_emit_numbered_write_spec format st r.1 _ chunk r.2 hr
      exact ⟨hb, r.2, rfl, ht⟩
  have hplain : (some ({ st with blank_line_repeated := st.blank_line_repeated },
      some (cat_write.plain chunk)) : Option (cat_line_state × Option cat_write)) =
        some (st2, wr) →
      st2.blank_line_repeated = st.blank_line_repeated ∧
      ∃ x, wr = some x ∧ cat_write_text x = chunk := by
    intro he
    simp only [Option.some.injEq, Prod.mk.injEq] at he
    obtain ⟨h1, h2⟩ := he
    subst h1 h2
    exact ⟨rfl, _, rfl, rfl⟩
  split at h
  · split at h
    · exact hemit h
    · exact hplain h
  · split at h
    · exact hemit h
    · exact hplain h

theorem cat_process_loop_write_chunks (ctx : cat_app_context) (format : cat_format)
    (hs : ctx.option_enabled CAT_OPTION_SQUEEZE_BLANK = false)
    (fuel : Nat) (st : cat_line_state) (fp : List Char) (ws : List cat_write)
    (hnul : NUL ∉ fp) (hblr : st.blank_line_repeated ≤ 1)
    (h : cat_process_loop_write ctx format fuel st fp = some ws) :
    ws.map cat_write_text = cat_read_chunks fuel fp := by
  induction fuel generalizing st fp ws with
  | zero => simp [cat_process_loop_write] at h
  | succ fuel ih =>
    cases fp with
    | nil =>
      have := cat_process_loop_write_nil ctx format _ st ws h
      subst this
      simp [cat_read_chunks, fgets]
    | cons c fp =>
      obtain ⟨st2, wr, ws2, hchunk, hrest, hws⟩ :=
        cat_process_loop_write_cons ctx format fuel st c fp ws h
      obtain ⟨hb2, x, hx, ht⟩ := cat_process_chunk_write_unsqueezed ctx format hs st st2 _ wr
        (fgets_read_not_mem_fst hnul) hblr hchunk
      have hrec := ih st2 _ ws2 (fgets_read_not_mem_snd hnul) (hb2 ▸ hblr) hrest
      rw [hws, hx]
      simp only [Option.toList, List.singleton_append, List.map_cons, ht, hrec,
        cat_read_chunks, fgets_cons]

theorem cat_read_chunks_flatten (fuel : Nat) (fp : List Char) (h : fp.length < fuel) :
    (cat_read_chunks fuel fp).flatten = fp := by
  induction fuel generalizing fp with
  | zero => omega
  | succ fuel ih =>
    cases fp with
    | nil => simp [cat_read_chunks, fgets]
    | cons c fp =>
      have hr := fgets_read_1023_rest c fp
      simp only [List.length_cons] at h
      simp only [cat_read_chunks, fgets_cons, List.flatten_cons]
      rw [ih _ (by omega), fgets_read_append]

/-- C20: for every option set with squeeze-blank disabled and every input
without NUL character and with fewer than `INT_MAX` characters,
`cat_process_file` makes one call of `fprintf` for each chunk it reads, in
order, each writing the chunk unaltered after at most one number field; so the
output without the number fields is the input. -/
theorem cat_numbering_keeps_input (ctx : cat_app_context)
    (hs : ctx.option_enabled CAT_OPTION_SQUEEZE_BLANK = false)
    (input : List Char) (hnul : NUL ∉ input) (hlen : input.length < INT_MAX) :
    ∃ ws, cat_process_writes ctx input = some ws ∧
      cat_process_file ctx input = some (cat_writes_render ws) ∧
      ws.map cat_write_text = cat_read_chunks (input.length + 1) input ∧
      (ws.map cat_write_text).flatten = input ∧
      ∀ wr ∈ ws, cat_write_render wr = cat_write_text wr ∨
        ∃ k, cat_write_render wr = number_field k ++ cat_write_text wr := by
  obtain ⟨ws, hws⟩ := cat_process_writes_total ctx input hnul hlen
  have hchunks := cat_process_loop_write_chunks ctx _ hs _ _ input ws hnul (Nat.zero_le _) hws
  refine ⟨ws, hws, ?_, hchunks, ?_, ?_⟩
  · rw [cat_process_file_writes, hws]
    rfl
  · rw [hchunks]
    exact cat_read_chunks_flatten _ input (Nat.lt_succ_self _)
  · intro wr _
    cases wr with
    | plain str => exact Or.inl rfl
    | numbered k str => exact Or.inr ⟨k, rfl⟩

/-- C20 with number-nonblank on a line of 1023 letters with its newline, then
`"b\n"`: the texts of the calls, put together, are the input. -/
theorem cat_numbering_keeps_input_witness :
    (cat_process_writes (cat_context false true false [])
        (List.replicate 1023 'a' ++ ['\n', 'b', '\n'])).map
      (fun ws => (ws.map cat_write_text).flatten) =
      some (List.replicate 1023 'a' ++ ['\n', 'b', '\n']) := by
  obtain ⟨ws, h1, _, _, h4, _⟩ := cat_numbering_keeps_input (cat_context false true false [])
    rfl (List.replicate 1023 'a' ++ ['\n', 'b', '\n']) (by decide) (by decide)
  rw [h1, Option.map_some', h4]

/-! ## C18 and C19: the code on chunks of one character -/

/-- C18: the code on a failing input.  With only number-nonblank enabled and
the input made of a line of 1023 letters and its newline, then the line
`"b\n"`, the chunks read are the letters, the newline alone and `"b\n"`.  After
the first chunk the continuation flag is set, as it should; after the second
chunk, which ends with a newline, the flag is still set, and the third chunk
is written as a continuation.  With number instead, the flag is cleared after
the second chunk. -/
theorem cat_continuation_flag_long_line :
    cat_read_chunks 4 (List.replicate 1023 'a' ++ ['\n', 'b', '\n']) =
      [List.replicate 1023 'a', ['\n'], ['b', '\n']] ∧
    cat_process_reads (cat_context false true false []) cat_format.numbered 1
        { linenum := 1, blank_line_repeated := 0, line_continued := false }
        (List.replicate 1023 'a' ++ ['\n', 'b', '\n']) =
      some ({ linenum := 1, blank_line_repeated := 0, line_continued := true },
            ['\n', 'b', '\n']) ∧
    cat_process_reads (cat_context false true false []) cat_format.numbered 2
        { linenum := 1, blank_line_repeated := 0, line_continued := false }
        (List.replicate 1023 'a' ++ ['\n', 'b', '\n']) =
      some ({ linenum := 1, blank_line_repeated := 0, line_continued := true },
            ['b', '\n']) ∧
    cat_process_chunk (cat_context false true false []) cat_format.numbered
        { linenum := 1, blank_line_repeated := 0, line_continued := true } ['b', '\n'] =
      some ({ linenum := 2, blank_line_repeated := 0, line_continued := false },
            ['b', '\n']) ∧
    cat_process_reads (cat_context true false false []) cat_format.numbered 2
        { linenum := 1, blank_line_repeated := 0, line_continued := false }
        (List.replicate 1023 'a' ++ ['\n', 'b', '\n']) =
      some ({ linenum := 2, blank_line_repeated := 0, line_continued := false },
            ['b', '\n']) := by
  decide

/-- C19: the code on a failing input.  With only squeeze-blank enabled and the
input `"\ny"`, the chunks read are the newline and the letter `y` alone; the
second has length 1, so the code takes it for a blank line although it is
neither a newline nor empty, counts it as the second blank line of a run and
writes nothing for it: the output is the newline alone. -/
theorem cat_blank_chunk_letter :
    cat_read_chunks 3 ['\n', 'y'] = [['\n'], ['y']] ∧
    (c_str ['y']).length ≤ 1 ∧
    cat_process_chunk (cat_context false false true []) cat_format.plain
        { linenum := 1, blank_line_repeated := 1, line_continued := false } ['y'] =
      some ({ linenum := 1, blank_line_repeated := 2, line_continued := false }, []) ∧
    cat_process_writes (cat_context false false true []) ['\n', 'y'] =
      some [cat_write.plain ['\n']] ∧
    cat_process_file (cat_context false false true []) ['\n', 'y'] = some ['\n'] := by
  decide

end Cat
